import Mathlib

/-!
# Parallel grayscale micro-benchmark (`main.go`)

A shallow embedding of the two work-distribution strategies of `main.go`
(`processImageWithWaitGroup`, `processImageWithChannel`), of the per-pixel loop
body they share, and of the control flow of `main`.

* Machine integers are natural numbers; `uint32` and `uint8` arithmetic carries an
  explicit `% 2 ^ 32` or `% 256`. Values of type `int` (indices, bounds) are not
  reduced: `image.NewRGBA` refuses a rectangle whose byte count overflows `int`.
* `image.RGBA` is modelled with `Rect.Min = (0, 0)` (what `image.Decode` yields for a
  JPEG and what `cloneImage` copies), its `Pix` slice grouped four bytes to a pixel.
* Goroutines are modelled by interleaving: a schedule is a list of events, each event
  lets one goroutine take its next atomic action, an event that is not enabled leaves
  the state unchanged. A strategy has returned when `wg.Wait()` can return, that is
  when every worker has executed `wg.Done()`.
* A run-time panic (integer division by zero) is the worker phase `fault`.
* The fields `writes` and `sent` of the machine states are ghost instrumentation: they
  record which goroutine called `img.Set` on which buffer cell, and which indices
  were sent on the channel.
-/

set_option linter.dupNamespace false
set_option maxRecDepth 100000

namespace GoE5

/-- Constant `NumWorkers` of `main.go` (line 15). -/
def NumWorkers : Nat := 4

/-- Go `color.RGBA`: four `uint8` channels. -/
structure color.RGBA where
  R : Nat
  G : Nat
  B : Nat
  A : Nat
deriving DecidableEq

/-- Channel values fit in a `uint8`. -/
def color.RGBA.is8bit (c : color.RGBA) : Prop :=
  c.R < 256 ∧ c.G < 256 ∧ c.B < 256 ∧ c.A < 256

instance (c : color.RGBA) : Decidable c.is8bit := by
  unfold color.RGBA.is8bit; infer_instance

/-- Go `func (c RGBA) RGBA() (r, g, b, a uint32)`: `r = uint32(c.R); r |= r << 8`,
and the same for the three other channels. -/
def color.RGBA.RGBA (c : color.RGBA) : Nat × Nat × Nat × Nat :=
  ((c.R ||| (c.R <<< 8)) % 2 ^ 32, (c.G ||| (c.G <<< 8)) % 2 ^ 32,
   (c.B ||| (c.B <<< 8)) % 2 ^ 32, (c.A ||| (c.A <<< 8)) % 2 ^ 32)

/-- Lines 118-119 (and 153-154): `r, g, b, _ := c.RGBA(); gray := uint8((r + g + b) / 3)`,
the sum and the quotient in `uint32`, the conversion to `uint8` truncating. -/
def gray (c : color.RGBA) : Nat :=
  match c.RGBA with
  | (r, g, b, _) => (((r + g) % 2 ^ 32 + b) % 2 ^ 32 / 3) % 256

/-- Line 120 (and 155): `grayColor := color.RGBA{gray, gray, gray, 255}`. -/
def grayColor (gray : Nat) : color.RGBA := ⟨gray, gray, gray, 255⟩

/-- The loop body of both strategies as a map on pixels (lines 118-120). -/
def grayKernel (c : color.RGBA) : color.RGBA := grayColor (gray c)

/-- The grayscale kernel in the words of the specification (section 4.1 and glossary),
not taken from the code: `(R, G, B, A)` goes to `(m, m, m, 255)` with
`m = floor((R + G + B) / 3)`. It is what the loop body is compared with. -/
def specGrayKernel (c : color.RGBA) : color.RGBA :=
  ⟨(c.R + c.G + c.B) / 3, (c.R + c.G + c.B) / 3, (c.R + c.G + c.B) / 3, 255⟩

/-- Go `image.RGBA` with `Rect = (0,0)-(width,height)`; `Pix` holds the pixels in
row-major order, `wf` is the length `image.NewRGBA` allocates. -/
structure image.RGBA where
  width : Nat
  height : Nat
  Pix : List color.RGBA
  wf : Pix.length = width * height

/-- Go `(*image.RGBA).At`: the zero colour outside `Rect`, else the pixel stored at
`PixOffset(x, y)`. -/
def image.RGBA.At (img : image.RGBA) (x y : Nat) : color.RGBA :=
  if x < img.width ∧ y < img.height then img.Pix.getD (y * img.width + x) ⟨0, 0, 0, 0⟩
  else ⟨0, 0, 0, 0⟩

/-- Go `(*image.RGBA).Set` with a `color.RGBA` argument: nothing outside `Rect`, else
the pixel at `PixOffset(x, y)` is overwritten. -/
def image.RGBA.Set (img : image.RGBA) (x y : Nat) (c : color.RGBA) : image.RGBA :=
  if x < img.width ∧ y < img.height then
    { width := img.width, height := img.height,
      Pix := img.Pix.set (y * img.width + x) c,
      wf := by rw [List.length_set]; exact img.wf }
  else img

/-- Go `image.NewRGBA` on the rectangle `(0,0)-(width,height)`: all channels zero. -/
def image.NewRGBA (width height : Nat) : image.RGBA :=
  { width := width, height := height,
    Pix := List.replicate (width * height) ⟨0, 0, 0, 0⟩,
    wf := List.length_replicate _ _ }

/-- Function `cloneImage` (lines 81-92): a fresh buffer filled pixel by pixel. -/
def cloneImage (src : image.RGBA) : image.RGBA :=
  (List.range src.height).foldl
    (fun clone y => (List.range src.width).foldl
      (fun clone x => clone.Set x y (src.At x y)) clone)
    (image.NewRGBA src.width src.height)

/-! ## Static strategy: `processImageWithWaitGroup` (lines 94-129) -/

namespace processImageWithWaitGroup

/-- Where a worker goroutine stands in its loop (lines 114-123). -/
inductive Phase where
  /-- about to evaluate `pixel < endPixel` (line 114) -/
  | test
  /-- lines 115-120 done, `img.Set(x, y, grayColor)` (line 122) pending -/
  | loaded (x y gray : Nat)
  /-- loop left, `wg.Done()` executed -/
  | done
  /-- run-time panic: integer divide by zero at lines 115-116 -/
  | fault
deriving DecidableEq

/-- Local variables of one worker goroutine. -/
structure Worker where
  pixel : Nat
  endPixel : Nat
  phase : Phase

/-- Shared buffer, captured `width`, the goroutines, and the ghost log of
`img.Set` calls as pairs (workerID, buffer offset). -/
structure State where
  img : image.RGBA
  width : Nat
  workers : Nat → Worker
  writes : List (Nat × Nat)

/-- Line 104: `pixelsPerWorker := width * height / NumWorkers`. -/
def pixelsPerWorker (NumWorkers : Nat) (img : image.RGBA) : Nat :=
  img.width * img.height / NumWorkers

/-- Lines 95-111: bounds, `pixelsPerWorker`, and each goroutine's `startPixel` and
`endPixel`. -/
def init (NumWorkers : Nat) (img : image.RGBA) : State :=
  let width := img.width
  let pixelsPerWorker := pixelsPerWorker NumWorkers img
  { img := img, width := width,
    workers := fun workerID =>
      let startPixel := workerID * pixelsPerWorker
      let endPixel := startPixel + pixelsPerWorker
      ⟨startPixel, endPixel, Phase.test⟩,
    writes := [] }

/-- One atomic action of goroutine `workerID` (lines 114-123). -/
def step (NumWorkers : Nat) (s : State) (workerID : Nat) : State :=
  if workerID < NumWorkers then
    let w := s.workers workerID
    match w.phase with
    | Phase.test =>
      if w.pixel < w.endPixel then
        if s.width = 0 then
          { s with workers := Function.update s.workers workerID { w with phase := Phase.fault } }
        else
          let x := w.pixel % s.width
          let y := w.pixel / s.width
          let gray := gray (s.img.At x y)
          { s with workers :=
              Function.update s.workers workerID { w with phase := Phase.loaded x y gray } }
      else
        { s with workers := Function.update s.workers workerID { w with phase := Phase.done } }
    | Phase.loaded x y gray =>
      { s with
        img := s.img.Set x y (grayColor gray),
        workers := Function.update s.workers workerID
          { w with pixel := w.pixel + 1, phase := Phase.test },
        writes := s.writes ++ [(workerID, y * s.width + x)] }
    | Phase.done => s
    | Phase.fault => s
  else s

/-- The state after the goroutines have taken their actions in the order `sched`. -/
def run (NumWorkers : Nat) (img : image.RGBA) (sched : List Nat) : State :=
  sched.foldl (step NumWorkers) (init NumWorkers img)

/-- Line 128: `wg.Wait()` returns once all `NumWorkers` goroutines called `wg.Done()`. -/
def returned (NumWorkers : Nat) (s : State) : Prop :=
  ∀ workerID, workerID < NumWorkers → (s.workers workerID).phase = Phase.done

instance (NumWorkers : Nat) (s : State) : Decidable (returned NumWorkers s) := by
  unfold returned; infer_instance

/-- Some worker goroutine has panicked. -/
def faulted (NumWorkers : Nat) (s : State) : Prop :=
  ∃ workerID, workerID < NumWorkers ∧ (s.workers workerID).phase = Phase.fault

instance (NumWorkers : Nat) (s : State) : Decidable (faulted NumWorkers s) := by
  unfold faulted; infer_instance

/-- A schedule that lets every worker run to the end of its loop, one after the other. -/
def fairSchedule (pixelsPerWorker : Nat) : Nat → List Nat
  | 0 => []
  | n + 1 => fairSchedule pixelsPerWorker n ++ List.replicate (2 * pixelsPerWorker + 1) n

/-- Invariant of every state the static strategy reaches from `img`: each worker stays
inside its own range, the pixels below a worker's counter hold the kernel output and
have been written once by that worker, all other pixels are as in `img`. -/
structure Inv (N : Nat) (img : image.RGBA) (s : State) : Prop where
  width_eq : s.width = img.width
  img_width : s.img.width = img.width
  img_height : s.img.height = img.height
  endPixel_eq : ∀ i, i < N →
    (s.workers i).endPixel = i * pixelsPerWorker N img + pixelsPerWorker N img
  start_le : ∀ i, i < N → i * pixelsPerWorker N img ≤ (s.workers i).pixel
  le_end : ∀ i, i < N →
    (s.workers i).pixel ≤ i * pixelsPerWorker N img + pixelsPerWorker N img
  loaded : ∀ i x y g, i < N → (s.workers i).phase = Phase.loaded x y g →
    (s.workers i).pixel < i * pixelsPerWorker N img + pixelsPerWorker N img
      ∧ x = (s.workers i).pixel % img.width ∧ y = (s.workers i).pixel / img.width
      ∧ g = gray (img.Pix.getD (s.workers i).pixel ⟨0, 0, 0, 0⟩)
  done : ∀ i, i < N → (s.workers i).phase = Phase.done →
    (s.workers i).pixel = i * pixelsPerWorker N img + pixelsPerWorker N img
  no_fault : ∀ i, i < N → (s.workers i).phase ≠ Phase.fault
  processed : ∀ p i, i < N → i * pixelsPerWorker N img ≤ p → p < (s.workers i).pixel →
    s.img.Pix[p]? = (img.Pix[p]?).map grayKernel
  untouched : ∀ p, (∀ i, i < N → i * pixelsPerWorker N img ≤ p → (s.workers i).pixel ≤ p) →
    s.img.Pix[p]? = img.Pix[p]?
  written : ∀ p i, i < N → i * pixelsPerWorker N img ≤ p → p < (s.workers i).pixel →
    s.writes.filter (fun e => e.2 = p) = [(i, p)]
  unwritten : ∀ p,
    (∀ i, i < N → i * pixelsPerWorker N img ≤ p → (s.workers i).pixel ≤ p) →
    s.writes.filter (fun e => e.2 = p) = []

/-- Number of atomic actions a worker still has to take. -/
def remaining (w : Worker) : Nat :=
  match w.phase with
  | Phase.test => 2 * (w.endPixel - w.pixel) + 1
  | Phase.loaded _ _ _ => 2 * (w.endPixel - w.pixel)
  | Phase.done => 0
  | Phase.fault => 0

end processImageWithWaitGroup

/-! ## Queue strategy: `processImageWithChannel` (lines 131-170) -/

namespace processImageWithChannel

/-- Where a worker goroutine stands in its loop (lines 149-158). -/
inductive Phase where
  /-- blocked in `range taskCh` (line 149) -/
  | recv
  /-- received `pixel`, lines 150-155 pending -/
  | task (pixel : Nat)
  /-- lines 150-155 done, `img.Set(x, y, grayColor)` (line 157) pending -/
  | loaded (pixel x y gray : Nat)
  /-- channel seen closed, `wg.Done()` executed -/
  | done
  /-- run-time panic: integer divide by zero at lines 150-151 -/
  | fault
deriving DecidableEq

/-- The index a worker has received and not yet stored, if any. -/
def Phase.held : Phase → Option Nat
  | Phase.recv => none
  | Phase.task pixel => some pixel
  | Phase.loaded pixel _ _ _ => some pixel
  | Phase.done => none
  | Phase.fault => none

/-- What can happen next: the rendezvous of the send of line 164 with the receive of
worker `workerID`, a local action of worker `workerID`, or `close(taskCh)` (line 168). -/
inductive Event where
  | send (workerID : Nat)
  | work (workerID : Nat)
  | close
deriving DecidableEq

/-- Shared buffer, captured bounds, the sender's loop counter `pixel`, whether the
channel is closed, the goroutines, and the ghost logs of sent indices and of `img.Set`
calls as pairs (workerID, buffer offset). -/
structure State where
  img : image.RGBA
  width : Nat
  height : Nat
  pixel : Nat
  closed : Bool
  workers : Nat → Phase
  sent : List Nat
  writes : List (Nat × Nat)

/-- Lines 132-147: bounds, the channel, the goroutines blocked on it. -/
def init (img : image.RGBA) : State :=
  { img := img, width := img.width, height := img.height, pixel := 0, closed := false,
    workers := fun _ => Phase.recv, sent := [], writes := [] }

/-- One atomic action. -/
def step (NumWorkers : Nat) (s : State) : Event → State
  | Event.send workerID =>
    if workerID < NumWorkers ∧ s.pixel < s.width * s.height ∧ s.closed = false
        ∧ s.workers workerID = Phase.recv then
      { s with
        pixel := s.pixel + 1,
        workers := Function.update s.workers workerID (Phase.task s.pixel),
        sent := s.sent ++ [s.pixel] }
    else s
  | Event.close =>
    if s.pixel < s.width * s.height then s else { s with closed := true }
  | Event.work workerID =>
    if workerID < NumWorkers then
      match s.workers workerID with
      | Phase.recv =>
        if s.closed = true then
          { s with workers := Function.update s.workers workerID Phase.done }
        else s
      | Phase.task pixel =>
        if s.width = 0 then
          { s with workers := Function.update s.workers workerID Phase.fault }
        else
          let x := pixel % s.width
          let y := pixel / s.width
          let gray := gray (s.img.At x y)
          { s with workers := Function.update s.workers workerID (Phase.loaded pixel x y gray) }
      | Phase.loaded _ x y gray =>
        { s with
          img := s.img.Set x y (grayColor gray),
          workers := Function.update s.workers workerID Phase.recv,
          writes := s.writes ++ [(workerID, y * s.width + x)] }
      | Phase.done => s
      | Phase.fault => s
    else s

/-- The state after the events of `sched` have happened in that order. -/
def run (NumWorkers : Nat) (img : image.RGBA) (sched : List Event) : State :=
  sched.foldl (step NumWorkers) (init img)

/-- Lines 168-169: the channel is closed and `wg.Wait()` returns once all
`NumWorkers` goroutines called `wg.Done()`. -/
def returned (NumWorkers : Nat) (s : State) : Prop :=
  s.closed = true ∧ ∀ workerID, workerID < NumWorkers → s.workers workerID = Phase.done

instance (NumWorkers : Nat) (s : State) : Decidable (returned NumWorkers s) := by
  unfold returned; infer_instance

/-- Some worker goroutine has panicked. -/
def faulted (NumWorkers : Nat) (s : State) : Prop :=
  ∃ workerID, workerID < NumWorkers ∧ s.workers workerID = Phase.fault

instance (NumWorkers : Nat) (s : State) : Decidable (faulted NumWorkers s) := by
  unfold faulted; infer_instance

/-- Worker 0 receives, loads and stores `pixels` indices in turn. -/
def serveAll : Nat → List Event
  | 0 => []
  | n + 1 => serveAll n ++ [Event.send 0, Event.work 0, Event.work 0]

/-- A schedule in which worker 0 handles every index, then the channel is closed and
every worker leaves its loop. -/
def fairSchedule (NumWorkers pixels : Nat) : List Event :=
  serveAll pixels ++ Event.close :: (List.range NumWorkers).map Event.work

/-- Invariant of every state the queue strategy reaches from `img`: the indices below
the sender's counter have been sent once each, an index is held by at most one worker,
a sent index that no worker holds has the kernel output and one logged write, every
other pixel is as in `img`. -/
structure Inv (N : Nat) (img : image.RGBA) (s : State) : Prop where
  width_eq : s.width = img.width
  height_eq : s.height = img.height
  img_width : s.img.width = img.width
  img_height : s.img.height = img.height
  pixel_le : s.pixel ≤ img.width * img.height
  closed_all : s.closed = true → s.pixel = img.width * img.height
  held_lt : ∀ i p, i < N → (s.workers i).held = some p → p < s.pixel
  held_inj : ∀ i j p, i < N → j < N →
    (s.workers i).held = some p → (s.workers j).held = some p → i = j
  loaded : ∀ i p x y g, i < N → s.workers i = Phase.loaded p x y g →
    x = p % img.width ∧ y = p / img.width ∧ g = gray (img.Pix.getD p ⟨0, 0, 0, 0⟩)
  no_fault : ∀ i, i < N → s.workers i ≠ Phase.fault
  done_closed : ∀ i, i < N → s.workers i = Phase.done → s.closed = true
  processed : ∀ p, p < s.pixel → (∀ i, i < N → (s.workers i).held ≠ some p) →
    s.img.Pix[p]? = (img.Pix[p]?).map grayKernel
  untouched : ∀ p, (s.pixel ≤ p ∨ ∃ i, i < N ∧ (s.workers i).held = some p) →
    s.img.Pix[p]? = img.Pix[p]?
  sent_eq : s.sent = List.range s.pixel
  written : ∀ p, p < s.pixel → (∀ i, i < N → (s.workers i).held ≠ some p) →
    ∃ i, i < N ∧ s.writes.filter (fun e => e.2 = p) = [(i, p)]
  unwritten : ∀ p, (s.pixel ≤ p ∨ ∃ i, i < N ∧ (s.workers i).held = some p) →
    s.writes.filter (fun e => e.2 = p) = []

end processImageWithChannel

/-! ## Driver: `loadImage`, `saveImage`, `main` (lines 18-79) -/

/-- Function `loadImage` (lines 51-64); `openErr` is the error of `os.Open` (`none` for
`nil`), `decoded` is what `image.Decode` returns. -/
def loadImage (openErr : Option String) (decoded : Except String image.RGBA) :
    Except String image.RGBA :=
  match openErr with
  | some err => Except.error err
  | none =>
    match decoded with
    | Except.error err => Except.error err
    | Except.ok img => Except.ok img

/-- Function `saveImage` (lines 66-79): the returned error, `none` for `nil`;
`createErr` is the error of `os.Create`, `encodeErr` the error of `jpeg.Encode`. -/
def saveImage (createErr encodeErr : Option String) : Option String :=
  match createErr with
  | some err => some err
  | none =>
    match encodeErr with
    | some err => some err
    | none => none

/-- Everything outside the program that one run of `main` depends on: the outcomes of
the file and codec calls, and the order in which the goroutines of the two strategies
are scheduled. -/
structure World where
  openErr : Option String
  decoded : Except String image.RGBA
  schedWG : List Nat
  schedCh : List processImageWithChannel.Event
  createErrWG : Option String
  encodeErrWG : Option String
  createErrCh : Option String
  encodeErrCh : Option String

/-- Function `main` (lines 18-49): the exit status of the process, `none` while a
strategy has not returned under the given schedule. `log.Fatal` exits with status 1, a
goroutine panic with status 2, falling off the end of `main` with status 0. -/
def main (w : World) : Option Nat :=
  match loadImage w.openErr w.decoded with
  | Except.error _ => some 1
  | Except.ok inputImage =>
    let inputImageWG := cloneImage inputImage
    let inputImageCh := cloneImage inputImage
    let sWG := processImageWithWaitGroup.run NumWorkers inputImageWG w.schedWG
    if processImageWithWaitGroup.faulted NumWorkers sWG then some 2
    else if processImageWithWaitGroup.returned NumWorkers sWG then
      let sCh := processImageWithChannel.run NumWorkers inputImageCh w.schedCh
      if processImageWithChannel.faulted NumWorkers sCh then some 2
      else if processImageWithChannel.returned NumWorkers sCh then
        let _errWG := saveImage w.createErrWG w.encodeErrWG
        let _errCh := saveImage w.createErrCh w.encodeErrCh
        some 0
      else none
    else none

/-! ## Concrete buffers and schedules used in the evaluations below -/

/-- A 1x1 buffer holding the pixel (1, 0, 0, 255). -/
def onePixel : image.RGBA :=
  { width := 1, height := 1, Pix := [⟨1, 0, 0, 255⟩], wf := rfl }

/-- A 2x2 buffer, every pixel (1, 0, 0, 255). -/
def fourPixels : image.RGBA :=
  { width := 2, height := 2, Pix := List.replicate 4 ⟨1, 0, 0, 255⟩, wf := rfl }

/-- A 3x1 buffer with three different pixels. -/
def threeByOne : image.RGBA :=
  { width := 3, height := 1, Pix := [⟨30, 60, 90, 7⟩, ⟨255, 0, 0, 255⟩, ⟨9, 8, 7, 6⟩],
    wf := rfl }

/-- A 2x2 buffer, every pixel (0, 0, 0, 0). -/
def allZero : image.RGBA :=
  { width := 2, height := 2, Pix := List.replicate 4 ⟨0, 0, 0, 0⟩, wf := rfl }

/-- The 4x4 buffer of scenario 1, every pixel (120, 60, 30, 200). -/
def uniform4x4 : image.RGBA :=
  { width := 4, height := 4, Pix := List.replicate 16 ⟨120, 60, 30, 200⟩, wf := rfl }

/-- A 2x2 buffer that is already grayscale. -/
def grayscale2x2 : image.RGBA :=
  { width := 2, height := 2,
    Pix := [⟨70, 70, 70, 255⟩, ⟨0, 0, 0, 255⟩, ⟨255, 255, 255, 255⟩, ⟨1, 1, 1, 255⟩],
    wf := rfl }

/-- A complete schedule for a four-pixel buffer and four workers: every worker receives
one index, and the workers load and store in an order unrelated to the order of
receipt. -/
def spreadSchedule : List processImageWithChannel.Event :=
  [processImageWithChannel.Event.send 2, processImageWithChannel.Event.send 0,
   processImageWithChannel.Event.send 3, processImageWithChannel.Event.send 1,
   processImageWithChannel.Event.work 3, processImageWithChannel.Event.work 1,
   processImageWithChannel.Event.work 0, processImageWithChannel.Event.work 2,
   processImageWithChannel.Event.work 1, processImageWithChannel.Event.work 3,
   processImageWithChannel.Event.work 2, processImageWithChannel.Event.work 0,
   processImageWithChannel.Event.close, processImageWithChannel.Event.work 0,
   processImageWithChannel.Event.work 1, processImageWithChannel.Event.work 2,
   processImageWithChannel.Event.work 3]

/-- A run of `main` in which the image loads and both `saveImage` calls fail. -/
def saveFails : World :=
  { openErr := none, decoded := Except.ok onePixel,
    schedWG := processImageWithWaitGroup.fairSchedule 0 4,
    schedCh := processImageWithChannel.fairSchedule 4 1,
    createErrWG := some "open output.jpg: permission denied", encodeErrWG := none,
    createErrCh := some "open output.jpg: permission denied", encodeErrCh := none }

/-! ## Linear indices and buffer access -/

/-- The range of worker `i < N` ends inside the buffer. -/
theorem chunk_end_le (W H N i : Nat) (hi : i < N) :
    i * (W * H / N) + W * H / N ≤ W * H := by
  have h1 : (i + 1) * (W * H / N) ≤ N * (W * H / N) := Nat.mul_le_mul_right _ hi
  have h2 : N * (W * H / N) ≤ W * H := Nat.mul_div_le _ _
  have h3 : (i + 1) * (W * H / N) = i * (W * H / N) + W * H / N := Nat.succ_mul _ _
  omega

/-- Row-major coordinates of a linear index below `W * H`. -/
theorem coords_in_range (W H p : Nat) (hp : p < W * H) :
    p % W < W ∧ p / W < H ∧ p / W * W + p % W = p := by
  have hW : 0 < W := by
    rcases Nat.eq_zero_or_pos W with h | h
    · subst h; simp at hp
    · exact h
  refine ⟨Nat.mod_lt _ hW, ?_, Nat.div_add_mod' p W⟩
  rw [Nat.div_lt_iff_lt_mul hW, Nat.mul_comm]; exact hp

/-- The ranges of two workers of the static strategy do not overlap. -/
theorem range_disjoint (c i j p : Nat) (hi : i * c ≤ p) (hi2 : p < i * c + c)
    (hj : j * c ≤ p) (hj2 : p < j * c + c) : i = j := by
  rcases Nat.lt_trichotomy i j with h | h | h
  · have h1 : (i + 1) * c ≤ j * c := Nat.mul_le_mul_right _ h
    have h3 : (i + 1) * c = i * c + c := Nat.succ_mul _ _
    omega
  · exact h
  · have h1 : (j + 1) * c ≤ i * c := Nat.mul_le_mul_right _ h
    have h3 : (j + 1) * c = j * c + c := Nat.succ_mul _ _
    omega

/-- Reading at the coordinates of `p` reads cell `p` of `Pix`. -/
theorem At_linear (img : image.RGBA) (p : Nat) (hp : p < img.width * img.height) :
    img.At (p % img.width) (p / img.width) = img.Pix.getD p ⟨0, 0, 0, 0⟩ := by
  obtain ⟨h1, h2, h3⟩ := coords_in_range _ _ _ hp
  simp only [image.RGBA.At, h1, h2, and_self, if_true, h3]

/-- Writing at the coordinates of `p` overwrites cell `p` of `Pix`. -/
theorem Set_linear (img : image.RGBA) (p : Nat) (c : color.RGBA)
    (hp : p < img.width * img.height) :
    (img.Set (p % img.width) (p / img.width) c).Pix = img.Pix.set p c := by
  obtain ⟨h1, h2, h3⟩ := coords_in_range _ _ _ hp
  simp only [image.RGBA.Set, h1, h2, and_self, if_true, h3]

theorem Set_width (img : image.RGBA) (x y : Nat) (c : color.RGBA) :
    (img.Set x y c).width = img.width := by
  unfold image.RGBA.Set; split <;> rfl

theorem Set_height (img : image.RGBA) (x y : Nat) (c : color.RGBA) :
    (img.Set x y c).height = img.height := by
  unfold image.RGBA.Set; split <;> rfl

theorem image_ext (a b : image.RGBA) (hw : a.width = b.width) (hh : a.height = b.height)
    (hp : a.Pix = b.Pix) : a = b := by
  cases a; cases b; simp only at hw hh hp; subst hw; subst hh; subst hp; rfl

/-! ## The static strategy keeps its invariant -/
namespace processImageWithWaitGroup

theorem wg_inv_init (N : Nat) (img : image.RGBA) : Inv N img (init N img) := by
  refine ⟨rfl, rfl, rfl, ?_, ?_, ?_, ?_, ?_, ?_, ?_, ?_, ?_, ?_⟩
  · intro i _; rfl
  · intro i _; exact Nat.le_refl _
  · intro i _; exact Nat.le_add_right _ _
  · intro i x y g _ h; simp [init] at h
  · intro i _ h; simp [init] at h
  · intro i _ h; simp [init] at h
  · intro p i _ h1 h2; simp only [init] at h2; omega
  · intro p _; rfl
  · intro p i _ h1 h2; simp only [init] at h2; omega
  · intro p _; rfl

/-- A worker that changes phase without moving its counter keeps the invariant. -/
theorem wg_inv_phase {N : Nat} {img : image.RGBA} {s : State} (h : Inv N img s) (w : Nat)
    (ph : Phase)
    (hl : ∀ x y g, ph = Phase.loaded x y g →
      (s.workers w).pixel < w * pixelsPerWorker N img + pixelsPerWorker N img
        ∧ x = (s.workers w).pixel % img.width ∧ y = (s.workers w).pixel / img.width
        ∧ g = gray (img.Pix.getD (s.workers w).pixel ⟨0, 0, 0, 0⟩))
    (hd : ph = Phase.done →
      (s.workers w).pixel = w * pixelsPerWorker N img + pixelsPerWorker N img)
    (hf : ph ≠ Phase.fault) :
    Inv N img
      { s with workers := Function.update s.workers w { (s.workers w) with phase := ph } } := by
  have hpix : ∀ i, (Function.update s.workers w { (s.workers w) with phase := ph } i).pixel
      = (s.workers i).pixel := by
    intro i
    by_cases hi : i = w
    · subst hi; simp
    · simp [Function.update_noteq hi]
  have hend : ∀ i, (Function.update s.workers w { (s.workers w) with phase := ph } i).endPixel
      = (s.workers i).endPixel := by
    intro i
    by_cases hi : i = w
    · subst hi; simp
    · simp [Function.update_noteq hi]
  have hphase : ∀ i, (Function.update s.workers w { (s.workers w) with phase := ph } i).phase
      = if i = w then ph else (s.workers i).phase := by
    intro i
    by_cases hi : i = w
    · subst hi; simp
    · simp [Function.update_noteq hi, hi]
  refine ⟨h.width_eq, h.img_width, h.img_height, ?_, ?_, ?_, ?_, ?_, ?_, ?_, ?_, ?_, ?_⟩
  · intro i hi; simp only [hend]; exact h.endPixel_eq i hi
  · intro i hi; simp only [hpix]; exact h.start_le i hi
  · intro i hi; simp only [hpix]; exact h.le_end i hi
  · intro i x y g hi hp
    simp only [hphase, hpix] at hp ⊢
    by_cases hiw : i = w
    · subst hiw; simp only [if_true] at hp; exact hl x y g hp
    · simp only [hiw, if_false] at hp; exact h.loaded i x y g hi hp
  · intro i hi hp
    simp only [hphase, hpix] at hp ⊢
    by_cases hiw : i = w
    · subst hiw; simp only [if_true] at hp; exact hd hp
    · simp only [hiw, if_false] at hp; exact h.done i hi hp
  · intro i hi hp
    simp only [hphase] at hp
    by_cases hiw : i = w
    · subst hiw; simp only [if_true] at hp; exact hf hp
    · simp only [hiw, if_false] at hp; exact h.no_fault i hi hp
  · intro p i hi h1 h2; simp only [hpix] at h2; exact h.processed p i hi h1 h2
  · intro p hp; simp only [hpix] at hp; exact h.untouched p hp
  · intro p i hi h1 h2; simp only [hpix] at h2; exact h.written p i hi h1 h2
  · intro p hp; simp only [hpix] at hp; exact h.unwritten p hp

end processImageWithWaitGroup

/-! ## The static strategy keeps its invariant: store and step -/
namespace processImageWithWaitGroup

/-- The store of line 122 keeps the invariant. -/
theorem wg_inv_store {N : Nat} {img : image.RGBA} {s : State} (h : Inv N img s) (w : Nat)
    (hw : w < N) (x y g : Nat) (hph : (s.workers w).phase = Phase.loaded x y g) :
    Inv N img
      { s with
        img := s.img.Set x y (grayColor g),
        workers := Function.update s.workers w
          { (s.workers w) with pixel := (s.workers w).pixel + 1, phase := Phase.test },
        writes := s.writes ++ [(w, y * s.width + x)] } := by
  obtain ⟨hlt, hx, hy, hg⟩ := h.loaded w x y g hw hph
  have hstart := h.start_le w hw
  have hq : (s.workers w).pixel < img.width * img.height :=
    Nat.lt_of_lt_of_le hlt (chunk_end_le _ _ _ _ hw)
  have hq2 : (s.workers w).pixel < s.img.width * s.img.height := by
    rw [h.img_width, h.img_height]; exact hq
  obtain ⟨-, -, hlin⟩ := coords_in_range _ _ _ hq
  have hoff : y * s.width + x = (s.workers w).pixel := by
    rw [h.width_eq, hx, hy]; exact hlin
  have hset : (s.img.Set x y (grayColor g)).Pix
      = s.img.Pix.set (s.workers w).pixel (grayColor g) := by
    have := Set_linear s.img _ (grayColor g) hq2
    rw [h.img_width] at this
    rw [hx, hy]; exact this
  have hlen : (s.workers w).pixel < s.img.Pix.length := by rw [s.img.wf]; exact hq2
  have hlen0 : (s.workers w).pixel < img.Pix.length := by rw [img.wf]; exact hq
  have hpix : ∀ i, (Function.update s.workers w
      { (s.workers w) with pixel := (s.workers w).pixel + 1, phase := Phase.test } i).pixel
      = if i = w then (s.workers w).pixel + 1 else (s.workers i).pixel := by
    intro i
    by_cases hi : i = w
    · subst hi; simp
    · simp [Function.update_noteq hi, hi]
  have hend : ∀ i, (Function.update s.workers w
      { (s.workers w) with pixel := (s.workers w).pixel + 1, phase := Phase.test } i).endPixel
      = (s.workers i).endPixel := by
    intro i
    by_cases hi : i = w
    · subst hi; simp
    · simp [Function.update_noteq hi]
  have hphase : ∀ i, (Function.update s.workers w
      { (s.workers w) with pixel := (s.workers w).pixel + 1, phase := Phase.test } i).phase
      = if i = w then Phase.test else (s.workers i).phase := by
    intro i
    by_cases hi : i = w
    · subst hi; simp
    · simp [Function.update_noteq hi, hi]
  -- a pixel other than the one just stored is covered after the step iff it was before
  have hcov : ∀ p, p ≠ (s.workers w).pixel → ∀ i,
      (p < (if i = w then (s.workers w).pixel + 1 else (s.workers i).pixel)
        ↔ p < (s.workers i).pixel) := by
    intro p hp i
    by_cases hi : i = w
    · subst hi; simp only [if_true]; omega
    · simp only [hi, if_false]
  refine ⟨h.width_eq, ?_, ?_, ?_, ?_, ?_, ?_, ?_, ?_, ?_, ?_, ?_, ?_⟩
  · simp only [Set_width]; exact h.img_width
  · simp only [Set_height]; exact h.img_height
  · intro i hi; simp only [hend]; exact h.endPixel_eq i hi
  · intro i hi; simp only [hpix]
    have := h.start_le i hi
    split
    · rename_i hiw; subst hiw; omega
    · exact this
  · intro i hi; simp only [hpix]
    split
    · rename_i hiw; subst hiw; omega
    · exact h.le_end i hi
  · intro i x' y' g' hi hp
    simp only [hphase, hpix] at hp ⊢
    by_cases hiw : i = w
    · simp only [hiw, if_true] at hp; cases hp
    · simp only [hiw, if_false] at hp ⊢; exact h.loaded i x' y' g' hi hp
  · intro i hi hp
    simp only [hphase, hpix] at hp ⊢
    by_cases hiw : i = w
    · simp only [hiw, if_true] at hp; cases hp
    · simp only [hiw, if_false] at hp ⊢; exact h.done i hi hp
  · intro i hi hp
    simp only [hphase] at hp
    by_cases hiw : i = w
    · simp only [hiw, if_true] at hp; cases hp
    · simp only [hiw, if_false] at hp; exact h.no_fault i hi hp
  · intro p i hi h1 h2
    simp only [hpix] at h2
    simp only [hset]
    by_cases hp : p = (s.workers w).pixel
    · subst hp
      rw [List.getElem?_set_self hlen, List.getElem?_eq_getElem hlen0, Option.map_some', hg,
        List.getD_eq_getElem?_getD, List.getElem?_eq_getElem hlen0]
      rfl
    · rw [List.getElem?_set_ne (Ne.symm hp)]
      exact h.processed p i hi h1 ((hcov p hp i).1 h2)
  · intro p hp
    simp only [hpix] at hp
    simp only [hset]
    have hne : p ≠ (s.workers w).pixel := by
      intro hpq
      have := hp w hw (by rw [hpq]; exact hstart)
      simp only [if_true] at this
      omega
    rw [List.getElem?_set_ne (Ne.symm hne)]
    apply h.untouched p
    intro i hi h1
    have := hp i hi h1
    have hc := hcov p hne i
    omega
  · intro p i hi h1 h2
    simp only [hpix] at h2
    simp only [List.filter_append, hoff]
    by_cases hp : p = (s.workers w).pixel
    · subst hp
      have hiw : i = w := by
        by_cases hiw : i = w
        · exact hiw
        · simp only [hiw, if_false] at h2
          have := h.le_end i hi
          exact range_disjoint _ _ _ _ h1 (by omega) hstart hlt
      subst hiw
      rw [h.unwritten _ (by
        intro j hj hj1
        by_cases hji : j = i
        · subst hji; exact Nat.le_refl _
        · by_contra hcon
          have := h.le_end j hj
          exact hji (range_disjoint _ _ _ _ hj1 (by omega) hstart hlt))]
      simp
    · rw [h.written p i hi h1 ((hcov p hp i).1 h2)]
      simp [Ne.symm hp]
  · intro p hp
    simp only [hpix] at hp
    have hne : p ≠ (s.workers w).pixel := by
      intro hpq
      have := hp w hw (by rw [hpq]; exact hstart)
      simp only [if_true] at this
      omega
    simp only [List.filter_append, hoff]
    rw [h.unwritten p (by
      intro i hi h1
      have := hp i hi h1
      have hc := hcov p hne i
      omega)]
    simp [Ne.symm hne]

/-- Every atomic action keeps the invariant. -/
theorem wg_inv_step {N : Nat} {img : image.RGBA} {s : State} (h : Inv N img s) (w : Nat) :
    Inv N img (step N s w) := by
  unfold step
  by_cases hw : w < N
  · simp only [hw, if_true]
    split
    · rename_i hph
      split
      · rename_i hlt
        have hlt2 : (s.workers w).pixel
            < w * pixelsPerWorker N img + pixelsPerWorker N img := by
          rw [← h.endPixel_eq w hw]; exact hlt
        have hq : (s.workers w).pixel < img.width * img.height :=
          Nat.lt_of_lt_of_le hlt2 (chunk_end_le _ _ _ _ hw)
        have hW : s.width ≠ 0 := by
          rw [h.width_eq]; intro h0; rw [h0] at hq; simp at hq
        simp only [hW, if_false]
        apply wg_inv_phase h w
        · intro x y g hxyg
          cases hxyg
          refine ⟨hlt2, by rw [h.width_eq], by rw [h.width_eq], ?_⟩
          have hq2 : (s.workers w).pixel < s.img.width * s.img.height := by
            rw [h.img_width, h.img_height]; exact hq
          have hat := At_linear s.img _ hq2
          rw [h.img_width] at hat
          rw [h.width_eq, hat, List.getD_eq_getElem?_getD, List.getD_eq_getElem?_getD,
            h.untouched]
          intro j hj hj1
          by_contra hcon
          have hjw : j = w := by
            have := h.le_end j hj
            exact range_disjoint _ _ _ _ hj1 (by omega) (h.start_le w hw) hlt2
          subst hjw
          omega
        · intro hd; cases hd
        · intro hf; cases hf
      · rename_i hge
        apply wg_inv_phase h w
        · intro x y g hxyg; cases hxyg
        · intro _
          have h1 := h.endPixel_eq w hw
          have h2 := h.le_end w hw
          omega
        · intro hf; cases hf
    · rename_i x y g hph
      exact wg_inv_store h w hw x y g hph
    · exact h
    · exact h
  · simp only [hw, if_false]; exact h

theorem wg_run_snoc (N : Nat) (img : image.RGBA) (sched : List Nat) (w : Nat) :
    run N img (sched ++ [w]) = step N (run N img sched) w := by
  simp [run, List.foldl_append]

/-- The invariant holds after every schedule. -/
theorem wg_inv_run (N : Nat) (img : image.RGBA) (sched : List Nat) :
    Inv N img (run N img sched) := by
  induction sched using List.reverseRecOn with
  | nil => exact wg_inv_init N img
  | append_singleton l a ih => rw [wg_run_snoc]; exact wg_inv_step ih a

end processImageWithWaitGroup

/-! ## The static strategy returns, and what it returns -/

/-- An index below `N * c` lies in the range of worker `p / c`. -/
theorem chunk_owner (c N p : Nat) (hp : p < N * c) :
    p / c < N ∧ p / c * c ≤ p ∧ p < p / c * c + c := by
  have hc : 0 < c := by
    rcases Nat.eq_zero_or_pos c with h | h
    · subst h; simp at hp
    · exact h
  refine ⟨(Nat.div_lt_iff_lt_mul hc).2 hp, Nat.div_mul_le_self p c, ?_⟩
  have h1 := Nat.div_add_mod' p c
  have h2 := Nat.mod_lt p hc
  omega

namespace processImageWithWaitGroup

/-- An action of worker `w` uses up one of its remaining actions and none of the others. -/
theorem wg_remaining_step {N : Nat} {img : image.RGBA} {s : State} (h : Inv N img s)
    (w i : Nat) (hi : i < N) :
    remaining ((step N s w).workers i)
      = if i = w then remaining (s.workers i) - 1 else remaining (s.workers i) := by
  unfold step
  by_cases hw : w < N
  · simp only [hw, if_true]
    by_cases hiw : i = w
    · subst hiw
      simp only [if_true]
      have hend := h.endPixel_eq i hi
      have hle := h.le_end i hi
      split
      · rename_i hph
        split
        · rename_i hlt
          have hW : s.width ≠ 0 := by
            rw [h.width_eq]; intro h0
            have := chunk_end_le img.width img.height N i hi
            rw [h0] at this
            unfold pixelsPerWorker at hend
            rw [h0] at hend
            simp at this hend
            omega
          simp only [hW, if_false, Function.update_same]
          simp only [remaining, hph]
          omega
        · rename_i hge
          simp only [Function.update_same]
          simp only [remaining, hph]
          omega
      · rename_i x y g hph
        have := (h.loaded i x y g hi hph).1
        simp only [Function.update_same]
        simp only [remaining, hph]
        omega
      · rename_i hph; simp only [remaining, hph]
      · rename_i hph; simp only [remaining, hph]
    · simp only [hiw, if_false]
      split
      · split
        · split <;> simp only [Function.update_noteq hiw]
        · simp only [Function.update_noteq hiw]
      · simp only [Function.update_noteq hiw]
      · rfl
      · rfl
  · simp only [hw, if_false]
    split
    · rename_i hiw; subst hiw; exact absurd hi hw
    · rfl

theorem wg_remaining_run (N : Nat) (img : image.RGBA) (sched : List Nat) (i : Nat)
    (hi : i < N) :
    remaining ((run N img sched).workers i)
      = 2 * pixelsPerWorker N img + 1 - sched.count i := by
  induction sched using List.reverseRecOn with
  | nil => simp [run, init, remaining]
  | append_singleton l a ih =>
    rw [wg_run_snoc, wg_remaining_step (wg_inv_run N img l) a i hi, ih, List.count_append]
    by_cases hia : i = a
    · subst hia; simp; omega
    · simp [hia, Ne.symm hia]

theorem wg_done_iff_remaining {N : Nat} {img : image.RGBA} {s : State} (h : Inv N img s)
    (i : Nat) (hi : i < N) :
    (s.workers i).phase = Phase.done ↔ remaining (s.workers i) = 0 := by
  have hnf := h.no_fault i hi
  have hl := h.loaded i
  unfold remaining
  cases hph : (s.workers i).phase with
  | test => simp
  | loaded x y g =>
    have := (hl x y g hi hph).1
    have := h.endPixel_eq i hi
    simp; omega
  | done => simp
  | fault => exact absurd hph hnf

/-- The static strategy has returned exactly when every worker has been scheduled `2 * pixelsPerWorker + 1` times. -/
theorem wg_returned_iff (N : Nat) (img : image.RGBA) (sched : List Nat) :
    returned N (run N img sched)
      ↔ ∀ i, i < N → 2 * pixelsPerWorker N img + 1 ≤ sched.count i := by
  unfold returned
  constructor
  · intro h i hi
    have := (wg_done_iff_remaining (wg_inv_run N img sched) i hi).1 (h i hi)
    rw [wg_remaining_run N img sched i hi] at this
    omega
  · intro h i hi
    apply (wg_done_iff_remaining (wg_inv_run N img sched) i hi).2
    rw [wg_remaining_run N img sched i hi]
    have := h i hi
    omega

theorem wg_count_fairSchedule (c n i : Nat) :
    (fairSchedule c n).count i = if i < n then 2 * c + 1 else 0 := by
  induction n with
  | zero => simp [fairSchedule]
  | succ n ih =>
    simp only [fairSchedule, List.count_append, ih, List.count_replicate]
    by_cases h1 : i < n
    · have h2 : ¬ n = i := by omega
      have h3 : i < n + 1 := by omega
      simp [h1, h2, h3]
    · by_cases h2 : n = i
      · subst h2; simp
      · have : ¬ i < n + 1 := by omega
        simp [h1, h2, this]

theorem wg_returned_fairSchedule (N : Nat) (img : image.RGBA) :
    returned N (run N img (fairSchedule (pixelsPerWorker N img) N)) := by
  rw [wg_returned_iff]
  intro i hi
  rw [wg_count_fairSchedule]; simp [hi]

/-- Pixels of the returned buffer below `N * pixelsPerWorker`. -/
theorem wg_returned_processed {N : Nat} {img : image.RGBA} {s : State} (h : Inv N img s)
    (hr : returned N s) (p : Nat) (hp : p < N * pixelsPerWorker N img) :
    s.img.Pix[p]? = (img.Pix[p]?).map grayKernel
      ∧ s.writes.filter (fun e => e.2 = p) = [(p / pixelsPerWorker N img, p)] := by
  obtain ⟨h1, h2, h3⟩ := chunk_owner _ _ _ hp
  have hd := h.done _ h1 (hr _ h1)
  exact ⟨h.processed p _ h1 h2 (by omega), h.written p _ h1 h2 (by omega)⟩

theorem wg_tail_untouched {N : Nat} {img : image.RGBA} {s : State} (h : Inv N img s)
    (p : Nat) (hp : N * pixelsPerWorker N img ≤ p) :
    s.img.Pix[p]? = img.Pix[p]? ∧ s.writes.filter (fun e => e.2 = p) = [] := by
  have hcov : ∀ i, i < N → i * pixelsPerWorker N img ≤ p → (s.workers i).pixel ≤ p := by
    intro i hi _
    have h1 := h.le_end i hi
    have h2 : (i + 1) * pixelsPerWorker N img ≤ N * pixelsPerWorker N img :=
      Nat.mul_le_mul_right _ hi
    have h3 : (i + 1) * pixelsPerWorker N img
        = i * pixelsPerWorker N img + pixelsPerWorker N img := Nat.succ_mul _ _
    omega
  exact ⟨h.untouched p hcov, h.unwritten p hcov⟩

/-- The buffer the static strategy returns, in closed form. -/
theorem wg_returned_Pix {N : Nat} {img : image.RGBA} {s : State} (h : Inv N img s)
    (hr : returned N s) :
    s.img.Pix = (img.Pix.take (N * pixelsPerWorker N img)).map grayKernel
      ++ img.Pix.drop (N * pixelsPerWorker N img) := by
  apply List.ext_getElem?
  intro p
  have hle : N * pixelsPerWorker N img ≤ img.Pix.length := by
    rw [img.wf]; unfold pixelsPerWorker; exact Nat.mul_div_le _ _
  have hlen : ((img.Pix.take (N * pixelsPerWorker N img)).map grayKernel).length
      = N * pixelsPerWorker N img := by
    rw [List.length_map, List.length_take]; omega
  by_cases hp : p < N * pixelsPerWorker N img
  · rw [(wg_returned_processed h hr p hp).1, List.getElem?_append_left (by omega),
      List.getElem?_map, List.getElem?_take_of_lt hp]
  · rw [(wg_tail_untouched h p (by omega)).1, List.getElem?_append_right (by omega), hlen,
      List.getElem?_drop]
    congr 1; omega

end processImageWithWaitGroup

/-! ## The queue strategy keeps its invariant -/
namespace processImageWithChannel

theorem ch_inv_init (N : Nat) (img : image.RGBA) : Inv N img (init img) := by
  refine ⟨rfl, rfl, rfl, rfl, Nat.zero_le _, ?_, ?_, ?_, ?_, ?_, ?_, ?_, ?_, rfl, ?_, ?_⟩
  · intro h; simp [init] at h
  · intro i p _ h; simp [init, Phase.held] at h
  · intro i j p _ _ h; simp [init, Phase.held] at h
  · intro i p x y g _ h; simp [init] at h
  · intro i _ h; simp [init] at h
  · intro i _ h; simp [init] at h
  · intro p hp; simp [init] at hp
  · intro p _; rfl
  · intro p hp; simp [init] at hp
  · intro p _; rfl

/-- A worker that changes phase while holding the same index keeps the invariant. -/
theorem ch_inv_phase {N : Nat} {img : image.RGBA} {s : State} (h : Inv N img s) (w : Nat)
    (v : Phase) (hheld : v.held = (s.workers w).held)
    (hl : ∀ p x y g, v = Phase.loaded p x y g →
      x = p % img.width ∧ y = p / img.width ∧ g = gray (img.Pix.getD p ⟨0, 0, 0, 0⟩))
    (hf : v ≠ Phase.fault) (hd : v = Phase.done → s.closed = true) :
    Inv N img { s with workers := Function.update s.workers w v } := by
  have hh : ∀ i, (Function.update s.workers w v i).held = (s.workers i).held := by
    intro i
    by_cases hi : i = w
    · subst hi; simp [hheld]
    · simp [Function.update_noteq hi]
  refine ⟨h.width_eq, h.height_eq, h.img_width, h.img_height, h.pixel_le, h.closed_all,
    ?_, ?_, ?_, ?_, ?_, ?_, ?_, h.sent_eq, ?_, ?_⟩
  · intro i p hi hp; simp only [hh] at hp; exact h.held_lt i p hi hp
  · intro i j p hi hj h1 h2; simp only [hh] at h1 h2; exact h.held_inj i j p hi hj h1 h2
  · intro i p x y g hi hp
    by_cases hiw : i = w
    · subst hiw; simp only [Function.update_same] at hp; exact hl p x y g hp
    · simp only [Function.update_noteq hiw] at hp; exact h.loaded i p x y g hi hp
  · intro i hi hp
    by_cases hiw : i = w
    · subst hiw; simp only [Function.update_same] at hp; exact hf hp
    · simp only [Function.update_noteq hiw] at hp; exact h.no_fault i hi hp
  · intro i hi hp
    by_cases hiw : i = w
    · subst hiw; simp only [Function.update_same] at hp; exact hd hp
    · simp only [Function.update_noteq hiw] at hp; exact h.done_closed i hi hp
  · intro p hp hn; simp only [hh] at hn; exact h.processed p hp hn
  · intro p hp; simp only [hh] at hp; exact h.untouched p hp
  · intro p hp hn; simp only [hh] at hn; exact h.written p hp hn
  · intro p hp; simp only [hh] at hp; exact h.unwritten p hp

/-- The rendezvous of line 164 keeps the invariant. -/
theorem ch_inv_send {N : Nat} {img : image.RGBA} {s : State} (h : Inv N img s) (w : Nat)
    (hw : w < N) (hlt : s.pixel < s.width * s.height) (hc : s.closed = false)
    (hph : s.workers w = Phase.recv) :
    Inv N img
      { s with
        pixel := s.pixel + 1,
        workers := Function.update s.workers w (Phase.task s.pixel),
        sent := s.sent ++ [s.pixel] } := by
  have hh : ∀ i, (Function.update s.workers w (Phase.task s.pixel) i).held
      = if i = w then some s.pixel else (s.workers i).held := by
    intro i
    by_cases hi : i = w
    · subst hi; simp [Phase.held]
    · simp [Function.update_noteq hi, hi]
  have hwn : (s.workers w).held = none := by rw [hph]; rfl
  -- who holds what, before and after
  have hold : ∀ p, p ≠ s.pixel → ∀ i,
      ((if i = w then some s.pixel else (s.workers i).held) = some p
        ↔ (s.workers i).held = some p) := by
    intro p hp i
    by_cases hi : i = w
    · subst hi; simp only [if_true, hwn]
      constructor
      · intro h1; exact absurd (Option.some.inj h1).symm hp
      · intro h1; cases h1
    · simp only [hi, if_false]
  rw [h.width_eq, h.height_eq] at hlt
  refine ⟨h.width_eq, h.height_eq, h.img_width, h.img_height, hlt, ?_,
    ?_, ?_, ?_, ?_, ?_, ?_, ?_, ?_, ?_, ?_⟩
  · intro hcl; simp only [hc] at hcl; cases hcl
  · intro i p hi hp
    simp only [hh] at hp
    by_cases hiw : i = w
    · simp only [hiw, if_true] at hp; cases hp; exact Nat.lt_succ_self _
    · simp only [hiw, if_false] at hp
      exact Nat.lt_succ_of_lt (h.held_lt i p hi hp)
  · intro i j p hi hj h1 h2
    simp only [hh] at h1 h2
    by_cases hiw : i = w <;> by_cases hjw : j = w
    · rw [hiw, hjw]
    · simp only [hiw, if_true] at h1; simp only [hjw, if_false] at h2
      cases h1
      exact absurd (h.held_lt j _ hj h2) (Nat.lt_irrefl _)
    · simp only [hjw, if_true] at h2; simp only [hiw, if_false] at h1
      cases h2
      exact absurd (h.held_lt i _ hi h1) (Nat.lt_irrefl _)
    · simp only [hiw, if_false] at h1; simp only [hjw, if_false] at h2
      exact h.held_inj i j p hi hj h1 h2
  · intro i p x y g hi hp
    by_cases hiw : i = w
    · subst hiw; simp only [Function.update_same] at hp; cases hp
    · simp only [Function.update_noteq hiw] at hp; exact h.loaded i p x y g hi hp
  · intro i hi hp
    by_cases hiw : i = w
    · subst hiw; simp only [Function.update_same] at hp; cases hp
    · simp only [Function.update_noteq hiw] at hp; exact h.no_fault i hi hp
  · intro i hi hp
    by_cases hiw : i = w
    · subst hiw; simp only [Function.update_same] at hp; cases hp
    · simp only [Function.update_noteq hiw] at hp; exact h.done_closed i hi hp
  · intro p hp hn
    dsimp only at hp
    simp only [hh] at hn
    have hne : p ≠ s.pixel := by
      intro hpq
      have := hn w hw
      simp only [if_true, hpq] at this
      exact this rfl
    apply h.processed p (by omega)
    intro i hi hi2
    exact hn i hi ((hold p hne i).2 hi2)
  · intro p hp
    dsimp only at hp
    simp only [hh] at hp
    apply h.untouched p
    by_cases hpq : p = s.pixel
    · left; omega
    · rcases hp with hp | ⟨i, hi, hi2⟩
      · left; omega
      · right; exact ⟨i, hi, (hold p hpq i).1 hi2⟩
  · show s.sent ++ [s.pixel] = List.range (s.pixel + 1)
    rw [h.sent_eq, List.range_succ]
  · intro p hp hn
    dsimp only at hp
    simp only [hh] at hn
    have hne : p ≠ s.pixel := by
      intro hpq
      have := hn w hw
      simp only [if_true, hpq] at this
      exact this rfl
    apply h.written p (by omega)
    intro i hi hi2
    exact hn i hi ((hold p hne i).2 hi2)
  · intro p hp
    dsimp only at hp
    simp only [hh] at hp
    apply h.unwritten p
    by_cases hpq : p = s.pixel
    · left; omega
    · rcases hp with hp | ⟨i, hi, hi2⟩
      · left; omega
      · right; exact ⟨i, hi, (hold p hpq i).1 hi2⟩

/-- Closing the channel (line 168) keeps the invariant. -/
theorem ch_inv_close {N : Nat} {img : image.RGBA} {s : State} (h : Inv N img s)
    (hge : ¬ s.pixel < s.width * s.height) :
    Inv N img { s with closed := true } := by
  rw [h.width_eq, h.height_eq] at hge
  refine ⟨h.width_eq, h.height_eq, h.img_width, h.img_height, h.pixel_le, ?_,
    h.held_lt, h.held_inj, h.loaded, h.no_fault, ?_, h.processed, h.untouched, h.sent_eq,
    h.written, h.unwritten⟩
  · intro _
    have := h.pixel_le
    show s.pixel = img.width * img.height
    omega
  · intro i _ _; rfl

end processImageWithChannel

/-! ## The queue strategy keeps its invariant: store and step -/
namespace processImageWithChannel

/-- The store of line 157 keeps the invariant. -/
theorem ch_inv_store {N : Nat} {img : image.RGBA} {s : State} (h : Inv N img s) (w : Nat)
    (hw : w < N) (p x y g : Nat) (hph : s.workers w = Phase.loaded p x y g) :
    Inv N img
      { s with
        img := s.img.Set x y (grayColor g),
        workers := Function.update s.workers w Phase.recv,
        writes := s.writes ++ [(w, y * s.width + x)] } := by
  obtain ⟨hx, hy, hg⟩ := h.loaded w p x y g hw hph
  have hwh : (s.workers w).held = some p := by rw [hph]; rfl
  have hps := h.held_lt w p hw hwh
  have hq : p < img.width * img.height := Nat.lt_of_lt_of_le hps h.pixel_le
  have hq2 : p < s.img.width * s.img.height := by
    rw [h.img_width, h.img_height]; exact hq
  obtain ⟨-, -, hlin⟩ := coords_in_range _ _ _ hq
  have hoff : y * s.width + x = p := by
    rw [h.width_eq, hx, hy]; exact hlin
  have hset : (s.img.Set x y (grayColor g)).Pix = s.img.Pix.set p (grayColor g) := by
    have := Set_linear s.img _ (grayColor g) hq2
    rw [h.img_width] at this
    rw [hx, hy]; exact this
  have hlen : p < s.img.Pix.length := by rw [s.img.wf]; exact hq2
  have hlen0 : p < img.Pix.length := by rw [img.wf]; exact hq
  have hh : ∀ i, (Function.update s.workers w Phase.recv i).held
      = if i = w then none else (s.workers i).held := by
    intro i
    by_cases hi : i = w
    · subst hi; simp [Phase.held]
    · simp [Function.update_noteq hi, hi]
  -- nobody holds the stored index afterwards; other indices are held as before
  have hfree : ∀ i, i < N → (if i = w then none else (s.workers i).held) ≠ some p := by
    intro i hi hc
    by_cases hiw : i = w
    · simp only [hiw, if_true] at hc; cases hc
    · simp only [hiw, if_false] at hc
      exact hiw (h.held_inj i w p hi hw hc hwh)
  have hold : ∀ p', p' ≠ p → ∀ i,
      ((if i = w then none else (s.workers i).held) = some p'
        ↔ (s.workers i).held = some p') := by
    intro p' hp' i
    by_cases hi : i = w
    · subst hi; simp only [if_true, hwh]
      constructor
      · intro h1; cases h1
      · intro h1; exact absurd (Option.some.inj h1).symm hp'
    · simp only [hi, if_false]
  refine ⟨h.width_eq, h.height_eq, ?_, ?_, h.pixel_le, h.closed_all,
    ?_, ?_, ?_, ?_, ?_, ?_, ?_, h.sent_eq, ?_, ?_⟩
  · simp only [Set_width]; exact h.img_width
  · simp only [Set_height]; exact h.img_height
  · intro i p' hi hp
    simp only [hh] at hp
    by_cases hiw : i = w
    · simp only [hiw, if_true] at hp; cases hp
    · simp only [hiw, if_false] at hp; exact h.held_lt i p' hi hp
  · intro i j p' hi hj h1 h2
    simp only [hh] at h1 h2
    by_cases hiw : i = w
    · simp only [hiw, if_true] at h1; cases h1
    · by_cases hjw : j = w
      · simp only [hjw, if_true] at h2; cases h2
      · simp only [hiw, if_false] at h1; simp only [hjw, if_false] at h2
        exact h.held_inj i j p' hi hj h1 h2
  · intro i p' x' y' g' hi hp
    by_cases hiw : i = w
    · subst hiw; simp only [Function.update_same] at hp; cases hp
    · simp only [Function.update_noteq hiw] at hp; exact h.loaded i p' x' y' g' hi hp
  · intro i hi hp
    by_cases hiw : i = w
    · subst hiw; simp only [Function.update_same] at hp; cases hp
    · simp only [Function.update_noteq hiw] at hp; exact h.no_fault i hi hp
  · intro i hi hp
    by_cases hiw : i = w
    · subst hiw; simp only [Function.update_same] at hp; cases hp
    · simp only [Function.update_noteq hiw] at hp; exact h.done_closed i hi hp
  · intro p' hp hn
    dsimp only at hp
    simp only [hh] at hn
    simp only [hset]
    by_cases hpp : p' = p
    · subst hpp
      rw [List.getElem?_set_self hlen, List.getElem?_eq_getElem hlen0, Option.map_some', hg,
        List.getD_eq_getElem?_getD, List.getElem?_eq_getElem hlen0]
      rfl
    · rw [List.getElem?_set_ne (Ne.symm hpp)]
      apply h.processed p' hp
      intro i hi hi2
      exact hn i hi ((hold p' hpp i).2 hi2)
  · intro p' hp
    dsimp only at hp
    simp only [hh] at hp
    simp only [hset]
    have hpp : p' ≠ p := by
      rcases hp with hp | ⟨i, hi, hi2⟩
      · omega
      · intro hc; rw [hc] at hi2; exact hfree i hi hi2
    rw [List.getElem?_set_ne (Ne.symm hpp)]
    apply h.untouched p'
    rcases hp with hp | ⟨i, hi, hi2⟩
    · left; exact hp
    · right; exact ⟨i, hi, (hold p' hpp i).1 hi2⟩
  · intro p' hp hn
    dsimp only at hp
    simp only [hh] at hn
    simp only [List.filter_append, hoff]
    by_cases hpp : p' = p
    · subst hpp
      refine ⟨w, hw, ?_⟩
      rw [h.unwritten p' (Or.inr ⟨w, hw, hwh⟩)]
      simp
    · obtain ⟨i, hi, hi2⟩ := h.written p' hp (by
        intro i hi hi2
        exact hn i hi ((hold p' hpp i).2 hi2))
      refine ⟨i, hi, ?_⟩
      rw [hi2]
      simp [Ne.symm hpp]
  · intro p' hp
    dsimp only at hp
    simp only [hh] at hp
    have hpp : p' ≠ p := by
      rcases hp with hp | ⟨i, hi, hi2⟩
      · omega
      · intro hc; rw [hc] at hi2; exact hfree i hi hi2
    simp only [List.filter_append, hoff]
    rw [h.unwritten p' (by
      rcases hp with hp | ⟨i, hi, hi2⟩
      · left; exact hp
      · right; exact ⟨i, hi, (hold p' hpp i).1 hi2⟩)]
    simp [Ne.symm hpp]

/-- Every atomic action keeps the invariant. -/
theorem ch_inv_step {N : Nat} {img : image.RGBA} {s : State} (h : Inv N img s) (e : Event) :
    Inv N img (step N s e) := by
  cases e with
  | send w =>
    simp only [step]
    split
    · rename_i hc
      exact ch_inv_send h w hc.1 hc.2.1 hc.2.2.1 hc.2.2.2
    · exact h
  | close =>
    simp only [step]
    split
    · exact h
    · rename_i hge; exact ch_inv_close h hge
  | work w =>
    simp only [step]
    by_cases hw : w < N
    · simp only [hw, if_true]
      split
      · rename_i hph
        split
        · rename_i hcl
          apply ch_inv_phase h w
          · rw [hph]; rfl
          · intro p x y g hv; cases hv
          · intro hv; cases hv
          · intro _; exact hcl
        · exact h
      · rename_i p hph
        have hwh : (s.workers w).held = some p := by rw [hph]; rfl
        have hps := h.held_lt w p hw hwh
        have hq : p < img.width * img.height := Nat.lt_of_lt_of_le hps h.pixel_le
        have hW : s.width ≠ 0 := by
          rw [h.width_eq]; intro h0; rw [h0] at hq; simp at hq
        simp only [hW, if_false]
        apply ch_inv_phase h w
        · rw [hph]; rfl
        · intro p' x y g hv
          cases hv
          refine ⟨by rw [h.width_eq], by rw [h.width_eq], ?_⟩
          have hq2 : p < s.img.width * s.img.height := by
            rw [h.img_width, h.img_height]; exact hq
          have hat := At_linear s.img _ hq2
          rw [h.img_width] at hat
          rw [h.width_eq, hat, List.getD_eq_getElem?_getD, List.getD_eq_getElem?_getD,
            h.untouched p (Or.inr ⟨w, hw, hwh⟩)]
        · intro hv; cases hv
        · intro hv; cases hv
      · rename_i p x y g hph
        exact ch_inv_store h w hw p x y g hph
      · exact h
      · exact h
    · simp only [hw, if_false]; exact h

theorem ch_run_snoc (N : Nat) (img : image.RGBA) (sched : List Event) (e : Event) :
    run N img (sched ++ [e]) = step N (run N img sched) e := by
  simp [run, List.foldl_append]

theorem ch_run_append (N : Nat) (img : image.RGBA) (s1 s2 : List Event) :
    run N img (s1 ++ s2) = s2.foldl (step N) (run N img s1) := by
  simp [run, List.foldl_append]

/-- The invariant holds after every schedule. -/
theorem ch_inv_run (N : Nat) (img : image.RGBA) (sched : List Event) :
    Inv N img (run N img sched) := by
  induction sched using List.reverseRecOn with
  | nil => exact ch_inv_init N img
  | append_singleton l a ih => rw [ch_run_snoc]; exact ch_inv_step ih a

/-- The buffer the queue strategy returns: the kernel mapped over the input. -/
theorem ch_returned_Pix {N : Nat} {img : image.RGBA} {s : State} (h : Inv N img s)
    (hr : returned N s) : s.img.Pix = img.Pix.map grayKernel := by
  apply List.ext_getElem?
  intro p
  rw [List.getElem?_map]
  have hall := h.closed_all hr.1
  by_cases hp : p < s.pixel
  · apply h.processed p hp
    intro i hi hc
    rw [hr.2 i hi] at hc
    cases hc
  · have hlen : img.Pix.length ≤ p := by rw [img.wf]; omega
    have hlen2 : s.img.Pix.length ≤ p := by
      rw [s.img.wf, h.img_width, h.img_height]; omega
    rw [List.getElem?_eq_none hlen, List.getElem?_eq_none hlen2]; rfl

theorem ch_returned_written {N : Nat} {img : image.RGBA} {s : State} (h : Inv N img s)
    (hr : returned N s) (p : Nat) (hp : p < img.width * img.height) :
    ∃ i, i < N ∧ s.writes.filter (fun e => e.2 = p) = [(i, p)] := by
  have hall := h.closed_all hr.1
  apply h.written p (by omega)
  intro i hi hc
  rw [hr.2 i hi] at hc
  cases hc

end processImageWithChannel

/-! ## The queue strategy returns -/
namespace processImageWithChannel

/-- After worker 0 has served `k` indices the sender stands at `k` and all workers wait. -/
theorem ch_run_serveAll (N : Nat) (img : image.RGBA) (hN : 0 < N) (k : Nat)
    (hk : k ≤ img.width * img.height) :
    (run N img (serveAll k)).pixel = k ∧ (run N img (serveAll k)).closed = false
      ∧ ∀ i, (run N img (serveAll k)).workers i = Phase.recv := by
  induction k with
  | zero => exact ⟨rfl, rfl, fun _ => rfl⟩
  | succ k ih =>
    obtain ⟨h1, h2, h3⟩ := ih (by omega)
    have hinv := ch_inv_run N img (serveAll k)
    have hlt : (run N img (serveAll k)).pixel
        < (run N img (serveAll k)).width * (run N img (serveAll k)).height := by
      rw [hinv.width_eq, hinv.height_eq, h1]; omega
    have hW : (run N img (serveAll k)).width ≠ 0 := by
      intro h0; rw [h0] at hlt; simp at hlt
    simp only [serveAll, ch_run_append, List.foldl_cons, List.foldl_nil]
    generalize run N img (serveAll k) = s at h1 h2 h3 hlt hW
    have e1 : step N s (Event.send 0)
        = { s with pixel := s.pixel + 1,
                   workers := Function.update s.workers 0 (Phase.task s.pixel),
                   sent := s.sent ++ [s.pixel] } := by
      simp only [step, hN, hlt, h2, h3, and_self, if_true]
    rw [e1]
    refine ⟨?_, ?_, ?_⟩
    · simp [step, hN, hW, h1]
    · simp [step, hN, hW, h2]
    · intro i
      by_cases hi : i = 0
      · subst hi; simp [step, hN, hW]
      · simp [step, hN, hW, Function.update_noteq hi, h3]

/-- Once the channel is closed, each waiting worker leaves its loop on its next action. -/
theorem ch_run_exits (N : Nat) (s : State) (hcl : s.closed = true)
    (hall : ∀ i, s.workers i = Phase.recv) (n : Nat) (hn : n ≤ N) :
    (((List.range n).map Event.work).foldl (step N) s).closed = true
      ∧ (∀ i, i < n → (((List.range n).map Event.work).foldl (step N) s).workers i
          = Phase.done)
      ∧ (∀ i, n ≤ i → (((List.range n).map Event.work).foldl (step N) s).workers i
          = Phase.recv) := by
  induction n with
  | zero => exact ⟨hcl, fun i hi => absurd hi (Nat.not_lt_zero _), fun i _ => hall i⟩
  | succ n ih =>
    obtain ⟨h1, h2, h3⟩ := ih (by omega)
    simp only [List.range_succ, List.map_append, List.foldl_append, List.map_cons,
      List.map_nil, List.foldl_cons, List.foldl_nil]
    generalize ((List.range n).map Event.work).foldl (step N) s = t at h1 h2 h3
    have hnN : n < N := by omega
    have e1 : step N t (Event.work n)
        = { t with workers := Function.update t.workers n Phase.done } := by
      simp only [step, hnN, if_true, h3 n (Nat.le_refl _), h1]
    rw [e1]
    refine ⟨h1, ?_, ?_⟩
    · intro i hi
      by_cases hin : i = n
      · subst hin; simp
      · simp only [Function.update_noteq hin]; exact h2 i (by omega)
    · intro i hi
      have hin : i ≠ n := by omega
      simp only [Function.update_noteq hin]; exact h3 i (by omega)

/-- With at least one worker the queue strategy returns. -/
theorem ch_returned_fairSchedule (N : Nat) (img : image.RGBA) (hN : 0 < N) :
    returned N (run N img (fairSchedule N (img.width * img.height))) := by
  obtain ⟨h1, h2, h3⟩ := ch_run_serveAll N img hN (img.width * img.height) (Nat.le_refl _)
  have hinv := ch_inv_run N img (serveAll (img.width * img.height))
  simp only [fairSchedule, ch_run_append, List.foldl_cons]
  generalize run N img (serveAll (img.width * img.height)) = s at h1 h2 h3 hinv
  have hge : ¬ s.pixel < s.width * s.height := by
    rw [hinv.width_eq, hinv.height_eq, h1]; exact Nat.lt_irrefl _
  have e1 : step N s Event.close = { s with closed := true } := by
    simp only [step, hge, if_false]
  rw [e1]
  obtain ⟨g1, g2, -⟩ := ch_run_exits N { s with closed := true } rfl h3 N (Nat.le_refl _)
  exact ⟨g1, g2⟩

end processImageWithChannel

/-! ## The loop-body kernel -/

/-- For an 8-bit value `c | c << 8` is `257 * c`. -/
theorem widen_eq (c : Nat) (hc : c < 256) : (c ||| (c <<< 8)) % 2 ^ 32 = 257 * c := by
  have h1 : c <<< 8 = 2 ^ 8 * c := by rw [Nat.shiftLeft_eq, Nat.mul_comm]
  have h2 : 2 ^ 8 * c + c = 2 ^ 8 * c ||| c := Nat.mul_add_lt_is_or (by omega) c
  rw [h1, Nat.lor_comm, ← h2]
  omega

theorem RGBA_eq (c : color.RGBA) (h8 : c.is8bit) :
    c.RGBA = (257 * c.R, 257 * c.G, 257 * c.B, 257 * c.A) := by
  obtain ⟨h1, h2, h3, h4⟩ := h8
  simp only [color.RGBA.RGBA, widen_eq _ h1, widen_eq _ h2, widen_eq _ h3, widen_eq _ h4]

/-- The gray value of an 8-bit pixel. -/
theorem gray_eq (c : color.RGBA) (h8 : c.is8bit) :
    gray c = (257 * (c.R + c.G + c.B) / 3) % 256 := by
  have h := RGBA_eq c h8
  obtain ⟨h1, h2, h3, h4⟩ := h8
  simp only [gray, h]
  have e1 : (257 * c.R + 257 * c.G) % 2 ^ 32 = 257 * c.R + 257 * c.G := by omega
  rw [e1]
  have e2 : (257 * c.R + 257 * c.G + 257 * c.B) % 2 ^ 32 = 257 * (c.R + c.G + c.B) := by
    omega
  rw [e2]

/-- What the loop body computes on any 8-bit pixel: the mean, shifted by 85 when the
channel sum leaves remainder 1 and by 171 when it leaves remainder 2, modulo 256. -/
theorem gray_formula (c : color.RGBA) (h8 : c.is8bit) :
    gray c = ((c.R + c.G + c.B) / 3 + 85 * ((c.R + c.G + c.B) % 3)
      + (c.R + c.G + c.B) % 3 / 2) % 256 := by
  rw [gray_eq c h8]
  obtain ⟨h1, h2, h3, -⟩ := h8
  have hr : (c.R + c.G + c.B) % 3 = 0 ∨ (c.R + c.G + c.B) % 3 = 1
      ∨ (c.R + c.G + c.B) % 3 = 2 := by omega
  rcases hr with hr | hr | hr <;> rw [hr] <;> omega

theorem gray_lt (c : color.RGBA) : gray c < 256 := by
  unfold gray
  exact Nat.mod_lt _ (by decide)

/-- The kernel fixes an 8-bit pixel with R = G = B and A = 255. -/
theorem grayKernel_fixed (c : color.RGBA)
    (h : c.R = c.G ∧ c.G = c.B ∧ c.A = 255 ∧ c.R < 256) : grayKernel c = c := by
  obtain ⟨h1, h2, h3, h4⟩ := h
  have h8 : c.is8bit := ⟨h4, by omega, by omega, by omega⟩
  have hg : gray c = c.R := by
    rw [gray_eq c h8]; omega
  cases c with
  | mk R G B A =>
    simp only at h1 h2 h3 h4 hg
    simp only [grayKernel, grayColor, hg]
    subst h1; subst h2; subst h3; rfl

theorem grayKernel_idem (c : color.RGBA) : grayKernel (grayKernel c) = grayKernel c := by
  apply grayKernel_fixed
  exact ⟨rfl, rfl, rfl, gray_lt c⟩

theorem map_grayKernel_fixed (l : List color.RGBA)
    (h : ∀ c, c ∈ l → c.R = c.G ∧ c.G = c.B ∧ c.A = 255 ∧ c.R < 256) :
    l.map grayKernel = l := by
  induction l with
  | nil => rfl
  | cons a l ih =>
    rw [List.map_cons, grayKernel_fixed a (h a (List.mem_cons_self _ _)),
      ih (fun c hc => h c (List.mem_cons_of_mem _ hc))]

/-- On an 8-bit pixel the loop body agrees with the kernel of the specification exactly
when the channel sum is divisible by 3. -/
theorem grayKernel_eq_specGrayKernel_iff (c : color.RGBA) (h8 : c.is8bit) :
    grayKernel c = specGrayKernel c ↔ (c.R + c.G + c.B) % 3 = 0 := by
  have hf := gray_formula c h8
  obtain ⟨h1, h2, h3, -⟩ := h8
  have hr : (c.R + c.G + c.B) % 3 = 0 ∨ (c.R + c.G + c.B) % 3 = 1
      ∨ (c.R + c.G + c.B) % 3 = 2 := by omega
  constructor
  · intro h
    have hg : gray c = (c.R + c.G + c.B) / 3 := by
      have := congrArg color.RGBA.R h
      simpa [grayKernel, grayColor, specGrayKernel] using this
    rw [hg] at hf
    rcases hr with hr | hr | hr
    · exact hr
    · rw [hr] at hf; omega
    · rw [hr] at hf; omega
  · intro h
    have hg : gray c = (c.R + c.G + c.B) / 3 := by
      rw [hf, h]; omega
    simp only [grayKernel, grayColor, specGrayKernel, hg]

/-! ## The claims -/

theorem At_of_getElem? (img out : image.RGBA) (f : color.RGBA → color.RGBA)
    (hw : out.width = img.width) (hh : out.height = img.height) (p : Nat)
    (hp : p < img.width * img.height) (h : out.Pix[p]? = (img.Pix[p]?).map f) :
    out.At (p % img.width) (p / img.width) = f (img.At (p % img.width) (p / img.width)) := by
  have hp2 : p < out.width * out.height := by rw [hw, hh]; exact hp
  have h1 := At_linear out p hp2
  rw [hw] at h1
  have hlen : p < img.Pix.length := by rw [img.wf]; exact hp
  rw [h1, At_linear img p hp, List.getD_eq_getElem?_getD, List.getD_eq_getElem?_getD, h,
    List.getElem?_eq_getElem hlen]
  rfl

theorem aligned_chunks (N : Nat) (img : image.RGBA)
    (hal : img.width * img.height % N = 0) :
    N * processImageWithWaitGroup.pixelsPerWorker N img = img.Pix.length := by
  unfold processImageWithWaitGroup.pixelsPerWorker
  rw [img.wf]
  exact Nat.mul_div_cancel' (Nat.dvd_of_mod_eq_zero hal)

/-- C1 (kernel correctness), evaluated on the code: on the one-pixel buffer holding
(1, 0, 0, 255) the queue strategy returns and leaves red = 85, and on the 2x2 buffer of
the same pixel the static strategy with four workers returns and leaves red = 85 at
index 0, while the mean floor((1 + 0 + 0) / 3) is 0. -/
theorem red_channel_differs_from_mean :
    processImageWithChannel.returned 4
        (processImageWithChannel.run 4 onePixel (processImageWithChannel.fairSchedule 4 1))
      ∧ ((processImageWithChannel.run 4 onePixel
            (processImageWithChannel.fairSchedule 4 1)).img.At 0 0).R = 85
      ∧ processImageWithWaitGroup.returned 4
        (processImageWithWaitGroup.run 4 fourPixels
          (processImageWithWaitGroup.fairSchedule 1 4))
      ∧ ((processImageWithWaitGroup.run 4 fourPixels
            (processImageWithWaitGroup.fairSchedule 1 4)).img.At 0 0).R = 85
      ∧ (onePixel.At 0 0).R = 1 ∧ (onePixel.At 0 0).G = 0 ∧ (onePixel.At 0 0).B = 0
      ∧ (fourPixels.At 0 0).R = 1 ∧ (fourPixels.At 0 0).G = 0 ∧ (fourPixels.At 0 0).B = 0
      ∧ (1 + 0 + 0) / 3 = 0 := by
  decide

/-- Under every schedule that lets the static strategy return, every pixel below
`N * pixelsPerWorker` holds the output of the loop body `grayKernel` on its own original
value, and every tail pixel holds its original value; and the fair schedule returns. -/
theorem wg_chunks_hold_loop_kernel (N : Nat) (img : image.RGBA) :
    processImageWithWaitGroup.returned N
        (processImageWithWaitGroup.run N img
          (processImageWithWaitGroup.fairSchedule
            (processImageWithWaitGroup.pixelsPerWorker N img) N))
      ∧ ∀ sched,
          processImageWithWaitGroup.returned N (processImageWithWaitGroup.run N img sched) →
          ∀ p, p < img.width * img.height →
            (p < N * processImageWithWaitGroup.pixelsPerWorker N img →
              (processImageWithWaitGroup.run N img sched).img.At (p % img.width) (p / img.width)
                = grayKernel (img.At (p % img.width) (p / img.width)))
            ∧ (N * processImageWithWaitGroup.pixelsPerWorker N img ≤ p →
              (processImageWithWaitGroup.run N img sched).img.At (p % img.width) (p / img.width)
                = img.At (p % img.width) (p / img.width)) := by
  refine ⟨processImageWithWaitGroup.wg_returned_fairSchedule N img, ?_⟩
  intro sched hr p hp
  have hinv := processImageWithWaitGroup.wg_inv_run N img sched
  constructor
  · intro hlt
    exact At_of_getElem? img _ grayKernel hinv.img_width hinv.img_height p hp
      (processImageWithWaitGroup.wg_returned_processed hinv hr p hlt).1
  · intro hge
    have h1 := (processImageWithWaitGroup.wg_tail_untouched hinv p hge).1
    exact At_of_getElem? img _ id hinv.img_width hinv.img_height p hp
      (by rw [h1]; simp)

/-- C2 (static strategy postcondition), evaluated on the code: on the 2x2 buffer of
(1, 0, 0, 255) with four workers the static strategy returns, index 0 lies below
`N * pixelsPerWorker`, and the pixel there ends as (85, 85, 85, 255), while the kernel of
the specification gives (0, 0, 0, 255) for its original value; on the 3x1 buffer with
two workers the last pixel keeps its original value. -/
theorem waitGroup_pixel_differs_from_spec_kernel :
    processImageWithWaitGroup.returned 4
        (processImageWithWaitGroup.run 4 fourPixels
          (processImageWithWaitGroup.fairSchedule 1 4))
      ∧ 0 < 4 * processImageWithWaitGroup.pixelsPerWorker 4 fourPixels
      ∧ (processImageWithWaitGroup.run 4 fourPixels
            (processImageWithWaitGroup.fairSchedule 1 4)).img.At (0 % 2) (0 / 2)
          = ⟨85, 85, 85, 255⟩
      ∧ specGrayKernel (fourPixels.At (0 % 2) (0 / 2)) = ⟨0, 0, 0, 255⟩
      ∧ processImageWithWaitGroup.returned 2
        (processImageWithWaitGroup.run 2 threeByOne [1, 0, 0, 1, 1, 0])
      ∧ (processImageWithWaitGroup.run 2 threeByOne [1, 0, 0, 1, 1, 0]).img.At (2 % 3) (2 / 3)
          = threeByOne.At (2 % 3) (2 / 3) := by
  decide

/-- C3 (domain coverage of the queue strategy): with at least one worker
processImageWithChannel returns once worker 0 has served every index, and whenever it
has returned, every pixel of the buffer has R = G = B and A = 255. -/
theorem channel_covers_every_pixel (N : Nat) (img : image.RGBA) (hN : 0 < N) :
    processImageWithChannel.returned N
        (processImageWithChannel.run N img
          (processImageWithChannel.fairSchedule N (img.width * img.height)))
      ∧ ∀ sched,
          processImageWithChannel.returned N (processImageWithChannel.run N img sched) →
          ∀ p, p < img.width * img.height →
            ((processImageWithChannel.run N img sched).img.At (p % img.width) (p / img.width)).R
                = ((processImageWithChannel.run N img sched).img.At
                    (p % img.width) (p / img.width)).G
            ∧ ((processImageWithChannel.run N img sched).img.At (p % img.width) (p / img.width)).G
                = ((processImageWithChannel.run N img sched).img.At
                    (p % img.width) (p / img.width)).B
            ∧ ((processImageWithChannel.run N img sched).img.At
                  (p % img.width) (p / img.width)).A = 255 := by
  refine ⟨processImageWithChannel.ch_returned_fairSchedule N img hN, ?_⟩
  intro sched hr p hp
  have hinv := processImageWithChannel.ch_inv_run N img sched
  have hpix := processImageWithChannel.ch_returned_Pix hinv hr
  have hat := At_of_getElem? img _ grayKernel hinv.img_width hinv.img_height p hp
    (by rw [hpix, List.getElem?_map])
  rw [hat]
  exact ⟨rfl, rfl, rfl⟩

/-- Witness for C3: a 2x2 buffer of (0, 0, 0, 0) with four workers becomes all
(0, 0, 0, 255). -/
theorem channel_covers_every_pixel_witness :
    0 < 4
      ∧ processImageWithChannel.returned 4
          (processImageWithChannel.run 4 allZero (processImageWithChannel.fairSchedule 4 4))
      ∧ ((processImageWithChannel.run 4 allZero
            (processImageWithChannel.fairSchedule 4 4)).img.At (3 % 2) (3 / 2)).A = 255
      ∧ (processImageWithChannel.run 4 allZero
            (processImageWithChannel.fairSchedule 4 4)).img.Pix
          = List.replicate 4 ⟨0, 0, 0, 255⟩ :=
  ⟨by decide, by decide,
   (((channel_covers_every_pixel 4 allZero (by decide)).2
      (processImageWithChannel.fairSchedule 4 4) (by decide)) 3 (by decide)).2.2,
   by decide⟩

/-- C4 (strategy equivalence on aligned inputs): when `W * H mod N = 0` and `N ≥ 1`,
both strategies return, and whenever both have returned on the same input their
buffers are equal. -/
theorem strategies_agree_on_aligned_input (N : Nat) (img : image.RGBA) (hN : 0 < N)
    (hal : img.width * img.height % N = 0) :
    processImageWithWaitGroup.returned N
        (processImageWithWaitGroup.run N img
          (processImageWithWaitGroup.fairSchedule
            (processImageWithWaitGroup.pixelsPerWorker N img) N))
      ∧ processImageWithChannel.returned N
        (processImageWithChannel.run N img
          (processImageWithChannel.fairSchedule N (img.width * img.height)))
      ∧ ∀ schedWG schedCh,
          processImageWithWaitGroup.returned N
            (processImageWithWaitGroup.run N img schedWG) →
          processImageWithChannel.returned N
            (processImageWithChannel.run N img schedCh) →
          (processImageWithWaitGroup.run N img schedWG).img
            = (processImageWithChannel.run N img schedCh).img := by
  refine ⟨processImageWithWaitGroup.wg_returned_fairSchedule N img,
    processImageWithChannel.ch_returned_fairSchedule N img hN, ?_⟩
  intro schedWG schedCh h1 h2
  have i1 := processImageWithWaitGroup.wg_inv_run N img schedWG
  have i2 := processImageWithChannel.ch_inv_run N img schedCh
  apply image_ext
  · rw [i1.img_width, i2.img_width]
  · rw [i1.img_height, i2.img_height]
  · rw [processImageWithWaitGroup.wg_returned_Pix i1 h1,
      processImageWithChannel.ch_returned_Pix i2 h2, aligned_chunks N img hal,
      List.take_length, List.drop_length, List.append_nil]

/-- Witness for C4: scenario 1, a 4x4 buffer of (120, 60, 30, 200) with four workers;
both strategies give (70, 70, 70, 255) everywhere. -/
theorem strategies_agree_on_aligned_input_witness :
    0 < 4 ∧ uniform4x4.width * uniform4x4.height % 4 = 0
      ∧ (processImageWithWaitGroup.run 4 uniform4x4
            (processImageWithWaitGroup.fairSchedule 4 4)).img
          = (processImageWithChannel.run 4 uniform4x4
              (processImageWithChannel.fairSchedule 4 16)).img
      ∧ (processImageWithChannel.run 4 uniform4x4
            (processImageWithChannel.fairSchedule 4 16)).img.Pix
          = List.replicate 16 ⟨70, 70, 70, 255⟩ :=
  ⟨by decide, by decide,
   (strategies_agree_on_aligned_input 4 uniform4x4 (by decide) (by decide)).2.2
      (processImageWithWaitGroup.fairSchedule 4 4)
      (processImageWithChannel.fairSchedule 4 16) (by decide) (by decide),
   by decide⟩

theorem wg_fixed_of_grayscale (N : Nat) (img : image.RGBA) (sched : List Nat)
    (hg : ∀ p, p < N * processImageWithWaitGroup.pixelsPerWorker N img →
      (img.Pix[p]?).map grayKernel = img.Pix[p]?)
    (hr : processImageWithWaitGroup.returned N (processImageWithWaitGroup.run N img sched)) :
    (processImageWithWaitGroup.run N img sched).img = img := by
  have hinv := processImageWithWaitGroup.wg_inv_run N img sched
  apply image_ext _ _ hinv.img_width hinv.img_height
  apply List.ext_getElem?
  intro p
  by_cases hp : p < N * processImageWithWaitGroup.pixelsPerWorker N img
  · rw [(processImageWithWaitGroup.wg_returned_processed hinv hr p hp).1, hg p hp]
  · exact (processImageWithWaitGroup.wg_tail_untouched hinv p (by omega)).1

/-- C5 (idempotence): on a buffer whose pixels all have R = G = B (an 8-bit value) and
A = 255, either strategy, once returned, leaves a buffer equal to its input; and a
second run of either strategy on the buffer a first run returned leaves that buffer
unchanged. -/
theorem strategies_idempotent (N : Nat) (img : image.RGBA) :
    ((∀ c, c ∈ img.Pix → c.R = c.G ∧ c.G = c.B ∧ c.A = 255 ∧ c.R < 256) →
        (∀ sched,
          processImageWithWaitGroup.returned N (processImageWithWaitGroup.run N img sched) →
          (processImageWithWaitGroup.run N img sched).img = img)
        ∧ (∀ sched,
          processImageWithChannel.returned N (processImageWithChannel.run N img sched) →
          (processImageWithChannel.run N img sched).img = img))
      ∧ (∀ sched1 sched2,
          processImageWithWaitGroup.returned N (processImageWithWaitGroup.run N img sched1) →
          processImageWithWaitGroup.returned N
            (processImageWithWaitGroup.run N
              (processImageWithWaitGroup.run N img sched1).img sched2) →
          (processImageWithWaitGroup.run N
              (processImageWithWaitGroup.run N img sched1).img sched2).img
            = (processImageWithWaitGroup.run N img sched1).img)
      ∧ (∀ sched1 sched2,
          processImageWithChannel.returned N (processImageWithChannel.run N img sched1) →
          processImageWithChannel.returned N
            (processImageWithChannel.run N
              (processImageWithChannel.run N img sched1).img sched2) →
          (processImageWithChannel.run N
              (processImageWithChannel.run N img sched1).img sched2).img
            = (processImageWithChannel.run N img sched1).img) := by
  refine ⟨?_, ?_, ?_⟩
  · intro hg
    have hmap := map_grayKernel_fixed img.Pix hg
    constructor
    · intro sched hr
      apply wg_fixed_of_grayscale N img sched _ hr
      intro p _
      rw [← List.getElem?_map, hmap]
    · intro sched hr
      have hinv := processImageWithChannel.ch_inv_run N img sched
      apply image_ext _ _ hinv.img_width hinv.img_height
      rw [processImageWithChannel.ch_returned_Pix hinv hr, hmap]
  · intro sched1 sched2 h1 h2
    have i1 := processImageWithWaitGroup.wg_inv_run N img sched1
    have hc : processImageWithWaitGroup.pixelsPerWorker N
        (processImageWithWaitGroup.run N img sched1).img
        = processImageWithWaitGroup.pixelsPerWorker N img := by
      unfold processImageWithWaitGroup.pixelsPerWorker
      rw [i1.img_width, i1.img_height]
    apply wg_fixed_of_grayscale N _ sched2 _ h2
    intro p hp
    rw [hc] at hp
    rw [(processImageWithWaitGroup.wg_returned_processed i1 h1 p hp).1, Option.map_map]
    congr 1
    funext c
    exact grayKernel_idem c
  · intro sched1 sched2 h1 h2
    have i1 := processImageWithChannel.ch_inv_run N img sched1
    have i2 := processImageWithChannel.ch_inv_run N
      (processImageWithChannel.run N img sched1).img sched2
    apply image_ext _ _ i2.img_width i2.img_height
    rw [processImageWithChannel.ch_returned_Pix i2 h2,
      processImageWithChannel.ch_returned_Pix i1 h1, List.map_map]
    congr 1
    funext c
    exact grayKernel_idem c

/-- Witness for C5: a grayscale 2x2 buffer is returned unchanged by the static strategy
with four workers and by the queue strategy with four workers. -/
theorem strategies_idempotent_witness :
    (∀ c, c ∈ grayscale2x2.Pix → c.R = c.G ∧ c.G = c.B ∧ c.A = 255 ∧ c.R < 256)
      ∧ (processImageWithWaitGroup.run 4 grayscale2x2 [3, 2, 1, 0, 0, 1, 2, 3, 3, 2, 1, 0]).img
          = grayscale2x2
      ∧ (processImageWithChannel.run 4 grayscale2x2
            (processImageWithChannel.fairSchedule 4 4)).img = grayscale2x2 :=
  ⟨by decide,
   ((strategies_idempotent 4 grayscale2x2).1 (by decide)).1
      [3, 2, 1, 0, 0, 1, 2, 3, 3, 2, 1, 0] (by decide),
   ((strategies_idempotent 4 grayscale2x2).1 (by decide)).2
      (processImageWithChannel.fairSchedule 4 4) (by decide)⟩

/-- C6 (exit status), evaluated on the code: whenever the input loads, `main` run under
schedules that let both strategies return ends with status 0, whatever the two
`saveImage` calls return, including the case where both return an error. -/
theorem main_exits_zero_whatever_saveImage_returns (img : image.RGBA)
    (createErrWG encodeErrWG createErrCh encodeErrCh : Option String) :
    main
        { openErr := none, decoded := Except.ok img,
          schedWG := processImageWithWaitGroup.fairSchedule
            (processImageWithWaitGroup.pixelsPerWorker NumWorkers (cloneImage img)) NumWorkers,
          schedCh := processImageWithChannel.fairSchedule NumWorkers
            ((cloneImage img).width * (cloneImage img).height),
          createErrWG := createErrWG, encodeErrWG := encodeErrWG,
          createErrCh := createErrCh, encodeErrCh := encodeErrCh } = some 0
      ∧ saveImage (some "open output.jpg: permission denied") none
          = some "open output.jpg: permission denied"
      ∧ main saveFails = some 0 := by
  refine ⟨?_, rfl, by decide⟩
  have r1 := processImageWithWaitGroup.wg_returned_fairSchedule NumWorkers (cloneImage img)
  have r2 := processImageWithChannel.ch_returned_fairSchedule NumWorkers (cloneImage img)
    (by decide)
  have f1 : ¬ processImageWithWaitGroup.faulted NumWorkers
      (processImageWithWaitGroup.run NumWorkers (cloneImage img)
        (processImageWithWaitGroup.fairSchedule
          (processImageWithWaitGroup.pixelsPerWorker NumWorkers (cloneImage img))
          NumWorkers)) := by
    rintro ⟨i, hi, hf⟩
    exact (processImageWithWaitGroup.wg_inv_run _ _ _).no_fault i hi hf
  have f2 : ¬ processImageWithChannel.faulted NumWorkers
      (processImageWithChannel.run NumWorkers (cloneImage img)
        (processImageWithChannel.fairSchedule NumWorkers
          ((cloneImage img).width * (cloneImage img).height))) := by
    rintro ⟨i, hi, hf⟩
    exact (processImageWithChannel.ch_inv_run _ _ _).no_fault i hi hf
  simp only [main, loadImage, f1, f2, r1, r2, if_true, if_false]

/-- With at least one worker the queue strategy returns, and under every schedule that
lets it return, with whatever number of workers, the buffer has the dimensions of the
input and its pixels are the loop body `grayKernel` applied pointwise to the input. -/
theorem ch_result_is_loop_kernel (N : Nat) (img : image.RGBA) (hN : 0 < N) :
    processImageWithChannel.returned N
        (processImageWithChannel.run N img
          (processImageWithChannel.fairSchedule N (img.width * img.height)))
      ∧ (∀ sched,
          processImageWithChannel.returned N (processImageWithChannel.run N img sched) →
          (processImageWithChannel.run N img sched).img.Pix = img.Pix.map grayKernel
            ∧ (processImageWithChannel.run N img sched).img.width = img.width
            ∧ (processImageWithChannel.run N img sched).img.height = img.height)
      ∧ ∀ M sched schedM,
          processImageWithChannel.returned N (processImageWithChannel.run N img sched) →
          processImageWithChannel.returned M (processImageWithChannel.run M img schedM) →
          (processImageWithChannel.run N img sched).img
            = (processImageWithChannel.run M img schedM).img := by
  refine ⟨processImageWithChannel.ch_returned_fairSchedule N img hN, ?_, ?_⟩
  · intro sched hr
    have hinv := processImageWithChannel.ch_inv_run N img sched
    exact ⟨processImageWithChannel.ch_returned_Pix hinv hr, hinv.img_width, hinv.img_height⟩
  · intro M sched schedM h1 h2
    have i1 := processImageWithChannel.ch_inv_run N img sched
    have i2 := processImageWithChannel.ch_inv_run M img schedM
    apply image_ext
    · rw [i1.img_width, i2.img_width]
    · rw [i1.img_height, i2.img_height]
    · rw [processImageWithChannel.ch_returned_Pix i1 h1,
        processImageWithChannel.ch_returned_Pix i2 h2]

/-- C7 (determinism of the queue strategy), evaluated on the code: on the 2x2 buffer of
(1, 0, 0, 255) with four workers the queue strategy returns under a schedule in which
worker 0 handles every index and under one in which each worker handles one index;
both end with the same buffer, every pixel (85, 85, 85, 255), while the kernel of the
specification applied pointwise to the input gives (0, 0, 0, 255) everywhere. -/
theorem channel_result_differs_from_spec_kernel :
    (1 ≤ 4 ∧ 4 ≤ fourPixels.width * fourPixels.height)
      ∧ processImageWithChannel.returned 4
        (processImageWithChannel.run 4 fourPixels (processImageWithChannel.fairSchedule 4 4))
      ∧ processImageWithChannel.returned 4
        (processImageWithChannel.run 4 fourPixels spreadSchedule)
      ∧ (processImageWithChannel.run 4 fourPixels
            (processImageWithChannel.fairSchedule 4 4)).img.Pix
          = List.replicate 4 ⟨85, 85, 85, 255⟩
      ∧ (processImageWithChannel.run 4 fourPixels spreadSchedule).img.Pix
          = List.replicate 4 ⟨85, 85, 85, 255⟩
      ∧ (processImageWithChannel.run 4 fourPixels spreadSchedule).writes
          = [(1, 3), (3, 2), (2, 0), (0, 1)]
      ∧ fourPixels.Pix.map specGrayKernel = List.replicate 4 ⟨0, 0, 0, 255⟩ := by
  decide

/-- C8 (disjoint, exactly-once writes): at every moment of either strategy a buffer cell
has been the target of at most one `img.Set` call; when processImageWithWaitGroup has
returned, each index below `N * pixelsPerWorker` has been written exactly once, by the
worker whose range holds it, no tail index has been written, and the ranges of two
distinct workers are disjoint; when processImageWithChannel has returned, the indices
sent are exactly `0 .. W*H - 1`, each once, and each has been written exactly once, by
one worker. -/
theorem writes_are_disjoint_and_exactly_once (N : Nat) (img : image.RGBA) :
    (∀ sched p,
        ((processImageWithWaitGroup.run N img sched).writes.filter
          (fun e => e.2 = p)).length ≤ 1)
      ∧ (∀ sched,
          processImageWithWaitGroup.returned N (processImageWithWaitGroup.run N img sched) →
          ∀ p,
            (p < N * processImageWithWaitGroup.pixelsPerWorker N img →
              (processImageWithWaitGroup.run N img sched).writes.filter (fun e => e.2 = p)
                = [(p / processImageWithWaitGroup.pixelsPerWorker N img, p)])
            ∧ (N * processImageWithWaitGroup.pixelsPerWorker N img ≤ p →
              (processImageWithWaitGroup.run N img sched).writes.filter (fun e => e.2 = p)
                = []))
      ∧ (∀ i j p,
          i * processImageWithWaitGroup.pixelsPerWorker N img ≤ p →
          p < i * processImageWithWaitGroup.pixelsPerWorker N img
                + processImageWithWaitGroup.pixelsPerWorker N img →
          j * processImageWithWaitGroup.pixelsPerWorker N img ≤ p →
          p < j * processImageWithWaitGroup.pixelsPerWorker N img
                + processImageWithWaitGroup.pixelsPerWorker N img →
          i = j)
      ∧ (∀ sched p,
          ((processImageWithChannel.run N img sched).writes.filter
              (fun e => e.2 = p)).length ≤ 1
            ∧ (processImageWithChannel.run N img sched).sent.count p ≤ 1)
      ∧ (∀ sched,
          processImageWithChannel.returned N (processImageWithChannel.run N img sched) →
          (processImageWithChannel.run N img sched).sent
              = List.range (img.width * img.height)
            ∧ ∀ p, p < img.width * img.height →
                (processImageWithChannel.run N img sched).sent.count p = 1
                ∧ ∃ i, i < N ∧
                  (processImageWithChannel.run N img sched).writes.filter (fun e => e.2 = p)
                    = [(i, p)]) := by
  refine ⟨?_, ?_, ?_, ?_, ?_⟩
  · intro sched p
    have hinv := processImageWithWaitGroup.wg_inv_run N img sched
    by_cases hc : ∃ i, i < N ∧ i * processImageWithWaitGroup.pixelsPerWorker N img ≤ p
        ∧ p < ((processImageWithWaitGroup.run N img sched).workers i).pixel
    · obtain ⟨i, hi, h1, h2⟩ := hc
      rw [hinv.written p i hi h1 h2]; simp
    · rw [hinv.unwritten p (by
        intro i hi h1
        by_contra h2
        exact hc ⟨i, hi, h1, by omega⟩)]
      simp
  · intro sched hr p
    have hinv := processImageWithWaitGroup.wg_inv_run N img sched
    exact ⟨fun hp => (processImageWithWaitGroup.wg_returned_processed hinv hr p hp).2,
      fun hp => (processImageWithWaitGroup.wg_tail_untouched hinv p hp).2⟩
  · intro i j p h1 h2 h3 h4
    exact range_disjoint _ i j p h1 h2 h3 h4
  · intro sched p
    have hinv := processImageWithChannel.ch_inv_run N img sched
    constructor
    · by_cases hc : p < (processImageWithChannel.run N img sched).pixel
          ∧ ∀ i, i < N → ((processImageWithChannel.run N img sched).workers i).held ≠ some p
      · obtain ⟨i, _, h⟩ := hinv.written p hc.1 hc.2
        rw [h]; simp
      · rw [hinv.unwritten p (by
          by_cases hp : p < (processImageWithChannel.run N img sched).pixel
          · right
            by_contra hne
            apply hc
            refine ⟨hp, ?_⟩
            intro i hi hh
            exact hne ⟨i, hi, hh⟩
          · left; omega)]
        simp
    · rw [hinv.sent_eq]
      exact List.nodup_iff_count_le_one.1 (List.nodup_range _) p
  · intro sched hr
    have hinv := processImageWithChannel.ch_inv_run N img sched
    have hall := hinv.closed_all hr.1
    have hs : (processImageWithChannel.run N img sched).sent
        = List.range (img.width * img.height) := by rw [hinv.sent_eq, hall]
    refine ⟨hs, ?_⟩
    intro p hp
    refine ⟨?_, processImageWithChannel.ch_returned_written hinv hr p hp⟩
    rw [hs]
    exact List.count_eq_one_of_mem (List.nodup_range _) (List.mem_range.2 hp)

/-- Witness for C8: the write logs of both strategies on a 3x1 buffer. -/
theorem writes_are_disjoint_and_exactly_once_witness :
    processImageWithWaitGroup.returned 2
        (processImageWithWaitGroup.run 2 threeByOne [1, 1, 0, 0, 1, 0])
      ∧ (processImageWithWaitGroup.run 2 threeByOne [1, 1, 0, 0, 1, 0]).writes.filter
          (fun e => e.2 = 1) = [(1 / processImageWithWaitGroup.pixelsPerWorker 2 threeByOne, 1)]
      ∧ (processImageWithWaitGroup.run 2 threeByOne [1, 1, 0, 0, 1, 0]).writes
          = [(1, 1), (0, 0)]
      ∧ (processImageWithChannel.run 2 threeByOne
            (processImageWithChannel.fairSchedule 2 3)).sent = List.range (3 * 1)
      ∧ (processImageWithChannel.run 2 threeByOne
            (processImageWithChannel.fairSchedule 2 3)).writes = [(0, 0), (0, 1), (0, 2)] :=
  ⟨by decide,
   (((writes_are_disjoint_and_exactly_once 2 threeByOne).2.1 [1, 1, 0, 0, 1, 0]
      (by decide)) 1).1 (by decide),
   by decide,
   (((writes_are_disjoint_and_exactly_once 2 threeByOne).2.2.2.2
      (processImageWithChannel.fairSchedule 2 3)) (by decide)).1,
   by decide⟩

/-- C9 (index arithmetic in range, no fault): for every linear index `p < W * H`,
`x = p mod W` and `y = p div W` satisfy `x < W`, `y < H`, `y * W + x = p`; under every
schedule of either strategy no worker ever divides by a zero width (no worker is in the
fault phase, and the width is non-zero whenever a worker is about to compute
coordinates), every index a worker of the static strategy has loaded is below
`N * pixelsPerWorker` and every index a worker of the queue strategy holds is below
`W * H`, with coordinates inside the buffer; so on an empty buffer no index is visited. -/
theorem index_arithmetic_in_range (N : Nat) (img : image.RGBA) :
    (∀ p, p < img.width * img.height →
        p % img.width < img.width ∧ p / img.width < img.height
          ∧ p / img.width * img.width + p % img.width = p)
      ∧ (∀ sched i, i < N →
          ((processImageWithWaitGroup.run N img sched).workers i).phase
              ≠ processImageWithWaitGroup.Phase.fault
            ∧ (((processImageWithWaitGroup.run N img sched).workers i).phase
                  = processImageWithWaitGroup.Phase.test →
                ((processImageWithWaitGroup.run N img sched).workers i).pixel
                  < ((processImageWithWaitGroup.run N img sched).workers i).endPixel →
                (processImageWithWaitGroup.run N img sched).width ≠ 0)
            ∧ ∀ x y g,
                ((processImageWithWaitGroup.run N img sched).workers i).phase
                  = processImageWithWaitGroup.Phase.loaded x y g →
                ((processImageWithWaitGroup.run N img sched).workers i).pixel
                    < N * processImageWithWaitGroup.pixelsPerWorker N img
                  ∧ x = ((processImageWithWaitGroup.run N img sched).workers i).pixel
                          % img.width
                  ∧ y = ((processImageWithWaitGroup.run N img sched).workers i).pixel
                          / img.width
                  ∧ x < img.width ∧ y < img.height
                  ∧ y * img.width + x
                      = ((processImageWithWaitGroup.run N img sched).workers i).pixel)
      ∧ (∀ sched i, i < N →
          (processImageWithChannel.run N img sched).workers i
              ≠ processImageWithChannel.Phase.fault
            ∧ (∀ p, (processImageWithChannel.run N img sched).workers i
                  = processImageWithChannel.Phase.task p →
                p < img.width * img.height
                  ∧ (processImageWithChannel.run N img sched).width ≠ 0)
            ∧ ∀ p x y g, (processImageWithChannel.run N img sched).workers i
                  = processImageWithChannel.Phase.loaded p x y g →
                p < img.width * img.height ∧ x = p % img.width ∧ y = p / img.width
                  ∧ x < img.width ∧ y < img.height ∧ y * img.width + x = p)
      ∧ (img.width = 0 ∨ img.height = 0 →
          (∀ sched, (processImageWithWaitGroup.run N img sched).writes = [])
            ∧ ∀ sched, (processImageWithChannel.run N img sched).sent = []) := by
  refine ⟨fun p hp => coords_in_range _ _ p hp, ?_, ?_, ?_⟩
  · intro sched i hi
    have hinv := processImageWithWaitGroup.wg_inv_run N img sched
    refine ⟨hinv.no_fault i hi, ?_, ?_⟩
    · intro _ hlt h0
      rw [hinv.endPixel_eq i hi] at hlt
      have h1 := chunk_end_le img.width img.height N i hi
      have h2 := hinv.width_eq
      rw [h0] at h2
      rw [← h2] at h1
      simp only [processImageWithWaitGroup.pixelsPerWorker, ← h2] at hlt
      simp at hlt h1
    · intro x y g hph
      obtain ⟨h1, hx, hy, -⟩ := hinv.loaded i x y g hi hph
      have hq := Nat.lt_of_lt_of_le h1 (chunk_end_le _ _ _ _ hi)
      obtain ⟨c1, c2, c3⟩ := coords_in_range _ _ _ hq
      have h2 : (i + 1) * processImageWithWaitGroup.pixelsPerWorker N img
          ≤ N * processImageWithWaitGroup.pixelsPerWorker N img :=
        Nat.mul_le_mul_right _ hi
      have h3 : (i + 1) * processImageWithWaitGroup.pixelsPerWorker N img
          = i * processImageWithWaitGroup.pixelsPerWorker N img
            + processImageWithWaitGroup.pixelsPerWorker N img := Nat.succ_mul _ _
      refine ⟨by omega, hx, hy, ?_, ?_, ?_⟩
      · rw [hx]; exact c1
      · rw [hy]; exact c2
      · rw [hx, hy]; exact c3
  · intro sched i hi
    have hinv := processImageWithChannel.ch_inv_run N img sched
    refine ⟨hinv.no_fault i hi, ?_, ?_⟩
    · intro p hph
      have hh : ((processImageWithChannel.run N img sched).workers i).held = some p := by
        rw [hph]; rfl
      have hq := Nat.lt_of_lt_of_le (hinv.held_lt i p hi hh) hinv.pixel_le
      refine ⟨hq, ?_⟩
      rw [hinv.width_eq]
      intro h0; rw [h0] at hq; simp at hq
    · intro p x y g hph
      have hh : ((processImageWithChannel.run N img sched).workers i).held = some p := by
        rw [hph]; rfl
      have hq := Nat.lt_of_lt_of_le (hinv.held_lt i p hi hh) hinv.pixel_le
      obtain ⟨hx, hy, -⟩ := hinv.loaded i p x y g hi hph
      obtain ⟨c1, c2, c3⟩ := coords_in_range _ _ _ hq
      refine ⟨hq, hx, hy, ?_, ?_, ?_⟩
      · rw [hx]; exact c1
      · rw [hy]; exact c2
      · rw [hx, hy]; exact c3
  · intro h0
    have hz : img.width * img.height = 0 := by
      rcases h0 with h | h <;> rw [h] <;> simp
    constructor
    · intro sched
      have hinv := processImageWithWaitGroup.wg_inv_run N img sched
      apply List.eq_nil_iff_forall_not_mem.2
      intro e he
      have h1 := hinv.unwritten e.2 (by
        intro i hi _
        have := hinv.le_end i hi
        have h2 : i * processImageWithWaitGroup.pixelsPerWorker N img
            + processImageWithWaitGroup.pixelsPerWorker N img ≤ img.width * img.height :=
          chunk_end_le img.width img.height N i hi
        rw [hz] at h2
        omega)
      have : e ∈ (processImageWithWaitGroup.run N img sched).writes.filter
          (fun e' => e'.2 = e.2) := by
        rw [List.mem_filter]; exact ⟨he, by simp⟩
      rw [h1] at this
      cases this
    · intro sched
      have hinv := processImageWithChannel.ch_inv_run N img sched
      have := hinv.pixel_le
      rw [hz] at this
      rw [hinv.sent_eq, Nat.le_zero.1 this]
      rfl

/-- Witness for C9: in a state of the queue strategy where worker 1 has loaded index 2
of a 3x1 buffer, its coordinates are (2, 0). -/
theorem index_arithmetic_in_range_witness :
    (1 : Nat) < 2
      ∧ (processImageWithChannel.run 2 threeByOne
            [processImageWithChannel.Event.send 0, processImageWithChannel.Event.send 1,
             processImageWithChannel.Event.work 0, processImageWithChannel.Event.work 0,
             processImageWithChannel.Event.send 0,
             processImageWithChannel.Event.work 0]).workers 0
          = processImageWithChannel.Phase.loaded 2 2 0 8
      ∧ (2 < threeByOne.width * threeByOne.height ∧ 2 = 2 % threeByOne.width
          ∧ 0 = 2 / threeByOne.width ∧ 2 < threeByOne.width ∧ 0 < threeByOne.height
          ∧ 0 * threeByOne.width + 2 = 2) :=
  ⟨by decide, by decide,
   ((index_arithmetic_in_range 2 threeByOne).2.2.1
      [processImageWithChannel.Event.send 0, processImageWithChannel.Event.send 1,
       processImageWithChannel.Event.work 0, processImageWithChannel.Event.work 0,
       processImageWithChannel.Event.send 0,
       processImageWithChannel.Event.work 0] 0 (by decide)).2.2 2 2 0 8 (by decide)⟩

/-- C10 (the coded kernel on sums divisible by 3): for a pixel with 8-bit channels,
`RGBA()` widens each channel `c` to `257 * c`; when `(R + G + B) mod 3 = 0` the gray
value the loop body computes, `uint8((257*R + 257*G + 257*B) / 3)`, is `(R + G + B) / 3`. -/
theorem gray_is_mean_when_sum_divisible (c : color.RGBA) (h8 : c.is8bit)
    (hdiv : (c.R + c.G + c.B) % 3 = 0) :
    c.RGBA = (257 * c.R, 257 * c.G, 257 * c.B, 257 * c.A)
      ∧ (257 * c.R + 257 * c.G + 257 * c.B) / 3 % 256 = (c.R + c.G + c.B) / 3
      ∧ gray c = (c.R + c.G + c.B) / 3
      ∧ grayKernel c
          = ⟨(c.R + c.G + c.B) / 3, (c.R + c.G + c.B) / 3, (c.R + c.G + c.B) / 3, 255⟩ := by
  have hg : gray c = (c.R + c.G + c.B) / 3 := by
    rw [gray_eq c h8]
    obtain ⟨h1, h2, h3, -⟩ := h8
    omega
  refine ⟨RGBA_eq c h8, ?_, hg, ?_⟩
  · obtain ⟨h1, h2, h3, -⟩ := h8
    omega
  · simp only [grayKernel, grayColor, hg]

/-- Witness for C10: the pixel (120, 60, 30, 200) of scenario 1 gives gray 70. -/
theorem gray_is_mean_when_sum_divisible_witness :
    (⟨120, 60, 30, 200⟩ : color.RGBA).is8bit ∧ (120 + 60 + 30) % 3 = 0
      ∧ gray ⟨120, 60, 30, 200⟩ = (120 + 60 + 30) / 3 :=
  ⟨by decide, by decide,
   (gray_is_mean_when_sum_divisible ⟨120, 60, 30, 200⟩ (by decide) (by decide)).2.2.1⟩

end GoE5
